import Mathlib

/-!
Verification development for the ritcher HLS/DASH ad stitcher.

The Rust sources are shallowly embedded: structs become structures, pure
functions become Lean functions, `f32`/`f64` values become an explicit
inductive over `ℚ` with dedicated NaN/infinity constructors (no rounding is
modelled: none of the verified properties performs float arithmetic, values
are only parsed, stored and compared for sign), fallible code returns
`Option`/`Except`, and the HTTP layer is abstracted as an explicit
fetch function `String → Option _`.
-/

/-- Model of an IEEE float value as stored in `f32`/`f64` fields: either NaN,
a signed infinity, or a finite value represented exactly as a rational
(rounding to binary precision is not modelled; the verified claims never do
float arithmetic). -/
inductive F32Val where
  | nan : F32Val
  | inf : Bool → F32Val
  | num : ℚ → F32Val
deriving DecidableEq, Repr

/-- Digits of a numeral, most significant first, folded to a natural. -/
def natOfDigits (ds : List Char) : ℕ :=
  ds.foldl (fun a c => a * 10 + (c.toNat - (Char.toNat '0'))) 0

/-- Split an optional leading sign. Returns (isNegative, remainder). -/
def splitSign (cs : List Char) : Bool × List Char :=
  match cs with
  | '-' :: rest => (true, rest)
  | '+' :: rest => (false, rest)
  | _ => (false, cs)

/-- Longest leading run of ASCII digits, and the remainder. -/
def spanDigits (cs : List Char) : List Char × List Char :=
  (cs.takeWhile Char.isDigit, cs.dropWhile Char.isDigit)

/-- Value of an optional exponent suffix `([eE][+-]?digits)?`; `none` when the
remaining characters are not a valid exponent or not empty. -/
def parseExpPart (cs : List Char) : Option ℤ :=
  match cs with
  | [] => some 0
  | c :: rest =>
    if c = 'e' ∨ c = 'E' then
      let (eneg, rest1) := splitSign rest
      let (eds, rest2) := spanDigits rest1
      if eds = [] ∨ rest2 ≠ [] then none
      else some (if eneg then -(natOfDigits eds : ℤ) else (natOfDigits eds : ℤ))
    else none

/-- Model of Rust `str::parse::<f32>` (the grammar documented for
`f32::from_str`): optional sign, then case-insensitively `inf`, `infinity` or
`nan`, or a decimal significand `digits [. digits] | . digits` with an
optional `e`/`E` exponent. The numeric value is kept exact in `ℚ`
(assembled from integer parts so it evaluates by kernel reduction). -/
def parseF32 (s : String) : Option F32Val :=
  let cs := s.toList
  if cs = [] then none
  else
    let (neg, cs1) := splitSign cs
    let lower := cs1.map Char.toLower
    if lower = ("inf").toList ∨ lower = ("infinity").toList then some (.inf neg)
    else if lower = ("nan").toList then some .nan
    else
      let (intD, cs2) := spanDigits cs1
      let (fracD, cs3) :=
        match cs2 with
        | '.' :: rest => spanDigits rest
        | _ => ([], cs2)
      if intD = [] ∧ fracD = [] then none
      else
        match parseExpPart cs3 with
        | none => none
        | some e =>
          let num0 : ℕ := natOfDigits intD * 10 ^ fracD.length + natOfDigits fracD
          let den0 : ℕ := 10 ^ fracD.length
          let num1 : ℕ := if 0 ≤ e then num0 * 10 ^ e.toNat else num0
          let den1 : ℕ := if 0 ≤ e then den0 else den0 * 10 ^ (-e).toNat
          some (.num (mkRat (if neg then -(num1 : ℤ) else (num1 : ℤ)) den1))

/-- m3u8-rs `ExtTag`: an unknown playlist tag split at the colon into the tag
name (with the `#EXT-` prefix stripped by the library) and the rest. -/
structure ExtTag where
  tag : String
  rest : Option String
deriving DecidableEq, Repr

/-- m3u8-rs `MediaSegment`. -/
structure MediaSegment where
  uri : String
  duration : F32Val
  title : Option String
  byte_range : Option String
  discontinuity : Bool
  key : Option String
  map : Option String
  program_date_time : Option String
  daterange : Option String
  unknown_tags : List ExtTag
deriving DecidableEq, Repr

/-- m3u8-rs `MediaPlaylist` (auxiliary header fields modelled opaquely). -/
structure MediaPlaylist where
  version : Option ℕ
  target_duration : ℕ
  media_sequence : ℕ
  discontinuity_sequence : ℕ
  end_list : Bool
  playlist_type : Option String
  independent_segments : Bool
  segments : List MediaSegment
  unknown_tags : List ExtTag
deriving DecidableEq, Repr

/-- `src/hls/cue.rs`: an ad break detected from CUE tags. -/
structure AdBreak where
  start_index : ℕ
  end_index : ℕ
  duration : F32Val
deriving DecidableEq, Repr

/-- `src/hls/cue.rs` `is_cue_in`. -/
def is_cue_in (tag_name : String) : Bool :=
  tag_name == ("X-CUE-IN") || tag_name == ("CUE-IN")

/-- `src/hls/cue.rs` `is_cue_out_cont`. -/
def is_cue_out_cont (tag_name : String) : Bool :=
  tag_name == ("X-CUE-OUT-CONT") || tag_name == ("CUE-OUT-CONT")

/-- Characters after the first occurrence of `c`, or `none` when absent. -/
def afterChar (c : Char) : List Char → Option (List Char)
  | [] => none
  | x :: xs => if x = c then some xs else afterChar c xs

/-- Rust `str::find('=')` based slice `rest[eq_pos + 1..]`: text after the
FIRST `=` (still containing any later `=`), or `none` when there is no `=`. -/
def afterFirstEq (r : String) : Option String :=
  (afterChar '=' r.toList).map (fun cs => ⟨cs⟩)

/-- Model of Rust `str::trim`: strip leading and trailing whitespace. -/
def rustTrim (s : String) : String :=
  ⟨((s.toList.dropWhile Char.isWhitespace).reverse.dropWhile Char.isWhitespace).reverse⟩

/-- `src/hls/cue.rs` `parse_cue_out`. -/
def parse_cue_out (tag_name : String) (rest : Option String) : Option F32Val :=
  if ¬(tag_name == ("X-CUE-OUT") || tag_name == ("CUE-OUT")) then none
  else
    match rest with
    | none => none
    | some r =>
      match afterFirstEq r with
      | some after =>
        match parseF32 (rustTrim after) with
        | some d => some d
        | none => parseF32 (rustTrim r)
      | none => parseF32 (rustTrim r)

/-- One tag of the inner loop of `detect_ad_breaks`: state is the open break
`(start_index, duration)` (if any) plus the breaks emitted so far. -/
def cueStep (index : ℕ) (st : Option (ℕ × F32Val) × List AdBreak) (t : ExtTag) :
    Option (ℕ × F32Val) × List AdBreak :=
  if is_cue_in t.tag then
    match st.1 with
    | some sd => (none, st.2 ++ [⟨sd.1, index, sd.2⟩])
    | none => (none, st.2)
  else if is_cue_out_cont t.tag then st
  else
    match parse_cue_out t.tag t.rest with
    | some d =>
      (match st.1 with
       | none => some (index, d)
       | some c => some c, st.2)
    | none => st

/-- One segment of the outer loop of `detect_ad_breaks`. -/
def cueSegStep (st : Option (ℕ × F32Val) × List AdBreak) (p : ℕ × MediaSegment) :
    Option (ℕ × F32Val) × List AdBreak :=
  p.2.unknown_tags.foldl (cueStep p.1) st

/-- Final step of `detect_ad_breaks`: close a still-open break at the
playlist end (exclusive index = segment count). -/
def closeOpenBreak (len : ℕ) (fin : Option (ℕ × F32Val) × List AdBreak) : List AdBreak :=
  match fin.1 with
  | some sd => fin.2 ++ [⟨sd.1, len, sd.2⟩]
  | none => fin.2

/-- `src/hls/cue.rs` `detect_ad_breaks`. -/
def detect_ad_breaks (playlist : MediaPlaylist) : List AdBreak :=
  closeOpenBreak playlist.segments.length (playlist.segments.enum.foldl cueSegStep (none, []))

/-- `src/hls/cue.rs` `is_in_ad_break`. -/
def is_in_ad_break (segment_index : ℕ) (ad_breaks : List AdBreak) : Bool :=
  ad_breaks.any (fun ab =>
    decide (segment_index ≥ ab.start_index) && decide (segment_index < ab.end_index))

/-- A content segment with no tags (test helper shape used across claims). -/
def plainSeg (u : String) : MediaSegment :=
  { uri := u, duration := .num 10, title := none, byte_range := none,
    discontinuity := false, key := none, map := none, program_date_time := none,
    daterange := none, unknown_tags := [] }

/-- A segment carrying a list of unknown tags. -/
def tagsSeg (ts : List ExtTag) : MediaSegment :=
  { plainSeg ("segment.ts") with unknown_tags := ts }

/-- A media playlist with default header fields and the given segments. -/
def mkPlaylist (segs : List MediaSegment) : MediaPlaylist :=
  { version := some 3, target_duration := 10, media_sequence := 0,
    discontinuity_sequence := 0, end_list := true, playlist_type := none,
    independent_segments := false, segments := segs, unknown_tags := [] }

/-- Invariant carried through the CUE scan: any open break started at or
before the segment index `i` currently processed, and every emitted break is
well-formed with end index at most `i`. -/
def CueInv (i : ℕ) (st : Option (ℕ × F32Val) × List AdBreak) : Prop :=
  (∀ s d, st.1 = some (s, d) → s ≤ i) ∧
  (∀ ab ∈ st.2, ab.start_index ≤ ab.end_index ∧ ab.end_index ≤ i)

theorem cueInv_mono {i j : ℕ} {st} (hij : i ≤ j) (h : CueInv i st) : CueInv j st := by
  refine ⟨fun s d hs => le_trans (h.1 s d hs) hij, fun ab hab => ?_⟩
  exact ⟨(h.2 ab hab).1, le_trans (h.2 ab hab).2 hij⟩

theorem cueStep_inv {i : ℕ} {st} (h : CueInv i st) (t : ExtTag) :
    CueInv i (cueStep i st t) := by
  unfold cueStep
  split
  · match hcur : st.1 with
    | some sd =>
      simp only [hcur]
      refine ⟨by simp, fun ab hab => ?_⟩
      rcases List.mem_append.1 hab with hmem | hmem
      · exact h.2 ab hmem
      · simp only [List.mem_singleton] at hmem
        subst hmem
        exact ⟨h.1 sd.1 sd.2 (by rw [hcur]), le_refl i⟩
    | none =>
      simp only [hcur]
      exact ⟨by simp, h.2⟩
  · split
    · exact h
    · split
      · refine ⟨fun s d hs => ?_, h.2⟩
        revert hs
        match hcur : st.1 with
        | none => intro hs; simp at hs; omega
        | some c =>
          intro hs; simp at hs; subst hs
          exact h.1 s d (by rw [hcur])
      · exact h

theorem cueFold_inv {i : ℕ} {st} (h : CueInv i st) (ts : List ExtTag) :
    CueInv i (ts.foldl (cueStep i) st) := by
  induction ts generalizing st with
  | nil => exact h
  | cons t ts ih => exact ih (cueStep_inv h t)

theorem cueScan_inv (l : List MediaSegment) (n : ℕ) (st) (h : CueInv n st) :
    CueInv (n + l.length) ((List.enumFrom n l).foldl cueSegStep st) := by
  induction l generalizing n st with
  | nil => simpa using h
  | cons a l ih =>
    have h1 : CueInv n (cueSegStep st (n, a)) := cueFold_inv h a.unknown_tags
    have h2 := ih (n + 1) (cueSegStep st (n, a)) (cueInv_mono (Nat.le_succ n) h1)
    have : n + 1 + l.length = n + (a :: l).length := by simp; omega
    rw [this] at h2
    simpa [List.enumFrom] using h2

/-- Closing the scan preserves the bounds, with the open break (if any)
closed at the segment count. -/
theorem closeOpenBreak_bounds {len : ℕ} {fin} (h : CueInv len fin) :
    ∀ ab ∈ closeOpenBreak len fin,
      ab.start_index ≤ ab.end_index ∧ ab.end_index ≤ len := by
  intro ab hab
  unfold closeOpenBreak at hab
  revert hab
  split
  next sd heq =>
    intro hab
    rcases List.mem_append.1 hab with hmem | hmem
    · exact h.2 ab hmem
    · simp only [List.mem_singleton] at hmem
      subst hmem
      exact ⟨h.1 sd.1 sd.2 (by rw [heq]), le_refl _⟩
  next heq =>
    intro hab
    exact h.2 ab hab

/-- C3 (amended): every ad break emitted by `detect_ad_breaks` satisfies
`start_index ≤ end_index ≤ segment count`. -/
theorem detect_ad_breaks_bounds (playlist : MediaPlaylist) :
    ∀ ab ∈ detect_ad_breaks playlist,
      ab.start_index ≤ ab.end_index ∧ ab.end_index ≤ playlist.segments.length := by
  have hbase : CueInv 0 ((none, []) : Option (ℕ × F32Val) × List AdBreak) := by
    constructor <;> simp
  have h := cueScan_inv playlist.segments 0 (none, []) hbase
  simp only [Nat.zero_add] at h
  have henum : playlist.segments.enum = List.enumFrom 0 playlist.segments := rfl
  unfold detect_ad_breaks
  rw [henum]
  exact closeOpenBreak_bounds h

/-- C3 counterexample: a playlist whose only segment carries both a CUE-OUT
and a CUE-IN in its unknown-tag list yields an AdBreak with
`start_index = end_index = 0`, refuting the strict inequality
`start_index < end_index`. -/
theorem detect_ad_breaks_strict_false :
    ¬ (∀ ab ∈ detect_ad_breaks
          (mkPlaylist [tagsSeg [⟨"X-CUE-OUT", some "30"⟩, ⟨"X-CUE-IN", none⟩]]),
        ab.start_index < ab.end_index) := by
  decide

/-- Witness for `detect_ad_breaks_bounds` at a concrete playlist. -/
theorem detect_ad_breaks_bounds_witness :
    (⟨1, 4, F32Val.num 30⟩ : AdBreak) ∈ detect_ad_breaks
      (mkPlaylist [plainSeg "seg0.ts", tagsSeg [⟨"X-CUE-OUT", some "30"⟩],
        plainSeg "seg2.ts", plainSeg "seg3.ts", tagsSeg [⟨"X-CUE-IN", none⟩],
        plainSeg "seg5.ts"]) ∧ (1 ≤ 4 ∧ 4 ≤ 6) := by
  constructor
  · decide
  · have h := detect_ad_breaks_bounds
      (mkPlaylist [plainSeg "seg0.ts", tagsSeg [⟨"X-CUE-OUT", some "30"⟩],
        plainSeg "seg2.ts", plainSeg "seg3.ts", tagsSeg [⟨"X-CUE-IN", none⟩],
        plainSeg "seg5.ts"]) ⟨1, 4, F32Val.num 30⟩ (by decide)
    simp only [mkPlaylist] at h
    exact h

/-- C5 counterexample: a CUE-OUT whose duration text is `-30` parses to a
negative value and DOES open an ad break, refuting "negative or NaN is
rejected (treat as no CUE)". -/
theorem cue_out_negative_opens_break :
    detect_ad_breaks (mkPlaylist [tagsSeg [⟨"X-CUE-OUT", some "-30"⟩], plainSeg "s1.ts"]) ≠ [] := by
  decide

/-- C5 (amended): duration texts parsing to a negative f32 or to NaN are
accepted as-is — the CUE-OUT opens an ad break carrying that duration; only
text that fails to parse as an f32 is treated as no CUE. -/
theorem cue_out_negative_nan_accepted :
    parse_cue_out "X-CUE-OUT" (some "-30") = some (.num (-30)) ∧
    parse_cue_out "X-CUE-OUT" (some "NaN") = some .nan ∧
    detect_ad_breaks (mkPlaylist [tagsSeg [⟨"X-CUE-OUT", some "-30"⟩], plainSeg "s1.ts"]) =
      [⟨0, 2, .num (-30)⟩] ∧
    detect_ad_breaks (mkPlaylist [tagsSeg [⟨"X-CUE-OUT", some "NaN"⟩], plainSeg "s1.ts"]) =
      [⟨0, 2, .nan⟩] ∧
    parse_cue_out "X-CUE-OUT" (some "invalid") = none := by
  refine ⟨by decide, by decide, by decide, by decide, by decide⟩

/-- `src/ad/vast.rs` `TrackingEvent`. -/
structure TrackingEvent where
  event : String
  url : String
deriving DecidableEq, Repr

/-- `src/ad/provider.rs` `AdTrackingInfo`. -/
structure AdTrackingInfo where
  impression_urls : List String
  tracking_events : List TrackingEvent
  error_url : Option String
  total_segments : ℕ
  segment_index : ℕ
deriving DecidableEq, Repr

/-- `src/ad/provider.rs` `AdSegment`. -/
structure AdSegment where
  uri : String
  duration : F32Val
  tracking : Option AdTrackingInfo
deriving DecidableEq, Repr

/-- `src/ad/interleaver.rs` `create_media_segment_from_ad`. -/
def create_media_segment_from_ad (ad_segment : AdSegment) (session_id base_url : String)
    (break_idx segment_idx : ℕ) : MediaSegment :=
  { uri := base_url ++ "/stitch/" ++ session_id ++ "/ad/break-" ++ toString break_idx
      ++ "-seg-" ++ toString segment_idx ++ ".ts",
    duration := ad_segment.duration,
    title := some ("Ad Break " ++ toString (break_idx + 1)),
    byte_range := none, discontinuity := false, key := none, map := none,
    program_date_time := none, daterange := none, unknown_tags := [] }

/-- The run of synthesized ad segments for one break: discontinuity forced on
the first, the rest numbered from 1 (`iter().skip(1).enumerate()`). -/
def adRunSegments (ads : List AdSegment) (session_id base_url : String) (break_idx : ℕ) :
    List MediaSegment :=
  match ads with
  | [] => []
  | a :: rest =>
    { create_media_segment_from_ad a session_id base_url break_idx 0 with discontinuity := true } ::
      rest.mapIdx (fun j a2 => create_media_segment_from_ad a2 session_id base_url break_idx (j + 1))

/-- The break loop of `interleave_ads`: `si` is `segment_index`; for each
break, content up to `start_index` is copied, then (for non-empty ad lists)
the ad run replaces the window `[start_index, end_index)` and the first
following content segment (if any) is re-emitted with a forced
discontinuity; the epilogue copies the remaining content segments. -/
def interleaveGo (original : List MediaSegment) (session_id base_url : String) :
    List (AdBreak × List AdSegment) → ℕ → ℕ → List MediaSegment
  | [], _, si => original.drop si
  | (b, ads) :: rest, bIdx, si =>
    let before := (original.drop si).take (b.start_index - si)
    let si1 := max si (min b.start_index original.length)
    if ads.isEmpty then
      before ++ interleaveGo original session_id base_url rest (bIdx + 1) si1
    else
      let adRun := adRunSegments ads session_id base_url bIdx
      match original.get? b.end_index with
      | some nxt =>
        before ++ adRun ++ ({ nxt with discontinuity := true } ::
          interleaveGo original session_id base_url rest (bIdx + 1) (b.end_index + 1))
      | none =>
        before ++ adRun ++ interleaveGo original session_id base_url rest (bIdx + 1) b.end_index

/-- `src/ad/interleaver.rs` `interleave_ads`. -/
def interleave_ads (playlist : MediaPlaylist) (ad_breaks : List AdBreak)
    (ad_segments_per_break : List (List AdSegment)) (session_id base_url : String) :
    MediaPlaylist :=
  if ad_breaks.isEmpty then playlist
  else if ad_breaks.length ≠ ad_segments_per_break.length then playlist
  else
    { playlist with
      segments :=
        interleaveGo playlist.segments session_id base_url
          (ad_breaks.zip ad_segments_per_break) 0 0 }

/-- Sum of the ad-window widths of the breaks that carry a non-empty ad
list (the windows actually replaced). -/
def windowSumZ (l : List (AdBreak × List AdSegment)) : ℤ :=
  ((l.filter (fun p => ¬ p.2.isEmpty)).map
    (fun p => (p.1.end_index : ℤ) - (p.1.start_index : ℤ))).sum

/-- Total number of ad segments supplied. -/
def adCount (l : List (AdBreak × List AdSegment)) : ℕ :=
  (l.map (fun p => p.2.length)).sum

theorem adRunSegments_length (ads : List AdSegment) (sid base : String) (bIdx : ℕ) :
    (adRunSegments ads sid base bIdx).length = ads.length := by
  cases ads with
  | nil => rfl
  | cons a rest => simp [adRunSegments]

theorem windowSumZ_cons (b : AdBreak) (ads : List AdSegment)
    (rest : List (AdBreak × List AdSegment)) :
    windowSumZ ((b, ads) :: rest)
      = (if ads.isEmpty then 0 else (b.end_index : ℤ) - (b.start_index : ℤ))
        + windowSumZ rest := by
  cases ads <;> simp [windowSumZ, List.filter_cons]

theorem adCount_cons (b : AdBreak) (ads : List AdSegment)
    (rest : List (AdBreak × List AdSegment)) :
    adCount ((b, ads) :: rest) = ads.length + adCount rest := by
  simp [adCount]

theorem interleaveGo_length (original : List MediaSegment) (sid base : String) :
    ∀ (l : List (AdBreak × List AdSegment)) (bIdx si : ℕ),
      (∀ p ∈ l, p.1.start_index < p.1.end_index ∧ p.1.end_index ≤ original.length) →
      List.Chain' (fun p q => p.1.end_index < q.1.start_index) l →
      (∀ p ∈ l.head?, si ≤ p.1.start_index) →
      si ≤ original.length →
      ((interleaveGo original sid base l bIdx si).length : ℤ)
        = ((original.length : ℤ) - si) - windowSumZ l + adCount l := by
  intro l
  induction l with
  | nil =>
    intro bIdx si _ _ _ hsi
    simp [interleaveGo, windowSumZ, adCount]
    omega
  | cons p rest ih =>
    obtain ⟨b, ads⟩ := p
    intro bIdx si hval hchain hhead hsi
    have hbv : b.start_index < b.end_index ∧ b.end_index ≤ original.length :=
      hval (b, ads) (List.mem_cons_self _ _)
    have hstart : si ≤ b.start_index := hhead (b, ads) (by simp)
    have hvalrest : ∀ p ∈ rest, p.1.start_index < p.1.end_index ∧
        p.1.end_index ≤ original.length :=
      fun p hp => hval p (List.mem_cons_of_mem _ hp)
    have hchainrest := (List.chain'_cons'.1 hchain).2
    have hrel : ∀ y ∈ rest.head?, b.end_index < y.1.start_index :=
      (List.chain'_cons'.1 hchain).1
    rw [windowSumZ_cons, adCount_cons]
    cases hads : ads with
    | nil =>
      simp only [interleaveGo, hads]
      rw [if_pos (show ([] : List AdSegment).isEmpty = true from rfl)]
      have hsi1 : max si (min b.start_index original.length) = b.start_index := by omega
      rw [hsi1]
      have hheadrest : ∀ p ∈ rest.head?, b.start_index ≤ p.1.start_index := by
        intro q hq
        have := hrel q hq
        omega
      have hih := ih (bIdx + 1) b.start_index hvalrest hchainrest hheadrest (by omega)
      simp only [List.length_append, List.length_take, List.length_drop,
        List.isEmpty_nil, if_pos, List.length_nil]
      push_cast
      rw [hih]
      omega
    | cons a rest2 =>
      simp only [interleaveGo, hads]
      rw [if_neg (by simp)]
      have hifw : (if (a :: rest2).isEmpty = true then (0 : ℤ)
          else (b.end_index : ℤ) - (b.start_index : ℤ))
          = (b.end_index : ℤ) - (b.start_index : ℤ) := by simp
      rw [hifw]
      cases hg : original.get? b.end_index with
      | some nxt =>
        have hend : b.end_index < original.length := by
          by_contra hc
          rw [List.get?_eq_none.2 (by omega)] at hg
          exact Option.noConfusion hg
        have hheadrest : ∀ p ∈ rest.head?, b.end_index + 1 ≤ p.1.start_index := by
          intro q hq
          have := hrel q hq
          omega
        have hih := ih (bIdx + 1) (b.end_index + 1) hvalrest hchainrest hheadrest (by omega)
        simp only [List.length_append, List.length_take, List.length_drop,
          List.length_cons, adRunSegments_length]
        push_cast
        push_cast at hih
        rw [hih]
        omega
      | none =>
        have hend : original.length ≤ b.end_index := by
          by_contra hc
          rw [List.get?_eq_get (by omega : b.end_index < original.length)] at hg
          exact Option.noConfusion hg
        cases rest with
        | cons q rest3 =>
          exfalso
          have h1 := hrel q (by simp)
          have h2 := hvalrest q (by simp)
          omega
        | nil =>
          simp only [interleaveGo, List.length_append, List.length_take,
            List.length_drop, adRunSegments_length, windowSumZ, adCount,
            List.filter_nil, List.map_nil, List.sum_nil, List.length_nil]
          push_cast
          omega

/-- C1 (amended): when the ad-break list is separated (each break ends
strictly before the next begins) and in bounds, and the per-break ad list
count matches, the output segment count is the input count minus the widths
of the windows of breaks with a NON-EMPTY ad list plus the total number of
ad segments; the post-break content segment retained with a forced
discontinuity is an original segment emitted in place, so it adds nothing
to the count.  A break with an empty ad list leaves the playlist unchanged. -/
theorem interleave_ads_count :
    (∀ (playlist : MediaPlaylist) (ad_breaks : List AdBreak)
        (ads : List (List AdSegment)) (session_id base_url : String),
      ad_breaks.length = ads.length →
      (∀ ab ∈ ad_breaks,
        ab.start_index < ab.end_index ∧ ab.end_index ≤ playlist.segments.length) →
      List.Chain' (fun a b => a.end_index < b.start_index) ad_breaks →
      ((interleave_ads playlist ad_breaks ads session_id base_url).segments.length : ℤ)
        = ((playlist.segments.length : ℤ) - windowSumZ (ad_breaks.zip ads))
          + adCount (ad_breaks.zip ads)) ∧
    (∀ (playlist : MediaPlaylist) (b : AdBreak) (session_id base_url : String),
      interleave_ads playlist [b] [[]] session_id base_url = playlist) := by
  constructor
  · intro pl breaks ads sid base hlen hval hchain
    by_cases hne : breaks.isEmpty = true
    · have hbr : breaks = [] := List.isEmpty_iff.1 hne
      subst hbr
      simp [interleave_ads, windowSumZ, adCount]
    · unfold interleave_ads
      rw [if_neg hne, if_neg (by omega)]
      have hfst : (breaks.zip ads).map Prod.fst = breaks :=
        List.map_fst_zip breaks ads (le_of_eq hlen)
      have hvalz : ∀ p ∈ breaks.zip ads, p.1.start_index < p.1.end_index ∧
          p.1.end_index ≤ pl.segments.length := by
        intro p hp
        obtain ⟨x, y⟩ := p
        exact hval x (List.of_mem_zip hp).1
      have hchainz : List.Chain' (fun p q : AdBreak × List AdSegment =>
          p.1.end_index < q.1.start_index) (breaks.zip ads) := by
        rw [← hfst] at hchain
        exact (List.chain'_map Prod.fst).1 hchain
      have h := interleaveGo_length pl.segments sid base (breaks.zip ads) 0 0
        hvalz hchainz (by intro p _; exact Nat.zero_le _) (Nat.zero_le _)
      simpa using h
  · intro pl b sid base
    unfold interleave_ads
    rw [if_neg (by simp), if_neg (by simp)]
    have hz : [b].zip [[]] = [(b, ([] : List AdSegment))] := rfl
    have h : interleaveGo pl.segments sid base [(b, [])] 0 0 = pl.segments := by
      simp only [interleaveGo]
      rw [if_pos (show ([] : List AdSegment).isEmpty = true from rfl)]
      simp only [List.drop_zero, Nat.sub_zero, Nat.zero_max]
      by_cases hsl : b.start_index ≤ pl.segments.length
      · rw [min_eq_left hsl]
        exact List.take_append_drop _ _
      · rw [min_eq_right (by omega)]
        rw [List.take_of_length_le (by omega), List.drop_length]
        simp
    rw [hz, h]

/-- Concrete instance from the interleaver's own unit test: five content
segments, one break over `[1, 3)`, two ads. -/
def exPl5 : MediaPlaylist :=
  mkPlaylist [plainSeg "seg0.ts", plainSeg "seg1.ts", plainSeg "seg2.ts",
    plainSeg "seg3.ts", plainSeg "seg4.ts"]

def exBreak13 : AdBreak := ⟨1, 3, .num 30⟩

def exAds2 : List AdSegment := [⟨"ad1.ts", .num 15, none⟩, ⟨"ad2.ts", .num 15, none⟩]

/-- C1 counterexample: on the instance above the interleaver's output has 5
segments, but the claimed formula `(|input| − Σ(end_i − start_i)) + Σ|ads_i|
+ (# breaks with end_i < |input| and |ads_i| > 0)` gives `(5 − 2) + 2 + 1
= 6` — the formula double-counts the retained post-break segment. -/
theorem interleave_count_formula_false :
    ¬ (((interleave_ads exPl5 [exBreak13] [exAds2] "test-session"
          "http://localhost").segments.length : ℤ)
        = ((5 : ℤ) - ((3 : ℤ) - (1 : ℤ))) + (2 : ℤ) + (1 : ℤ)) := by
  decide

/-- Witness for `interleave_ads_count` at the concrete instance above. -/
theorem interleave_ads_count_witness :
    (([exBreak13].length = [exAds2].length) ∧
      (∀ ab ∈ [exBreak13], ab.start_index < ab.end_index ∧
        ab.end_index ≤ exPl5.segments.length) ∧
      List.Chain' (fun a b : AdBreak => a.end_index < b.start_index) [exBreak13]) ∧
    ((interleave_ads exPl5 [exBreak13] [exAds2] "test-session"
        "http://localhost").segments.length : ℤ)
      = ((exPl5.segments.length : ℤ) - windowSumZ ([exBreak13].zip [exAds2]))
        + adCount ([exBreak13].zip [exAds2]) := by
  refine ⟨⟨by decide, by decide, List.chain'_singleton _⟩, ?_⟩
  exact interleave_ads_count.1 exPl5 [exBreak13] [exAds2] "test-session"
    "http://localhost" (by decide) (by decide) (List.chain'_singleton _)

/-- The host of a parsed URL (`url::Host`): IPv4 octets, IPv6 16-bit
segments, or a domain name. -/
inductive UrlHost where
  | ipv4 (a b c d : ℕ)
  | ipv6 (s0 s1 s2 s3 s4 s5 s6 s7 : ℕ)
  | domain (name : String)
deriving DecidableEq, Repr

/-- A URL after `Url::parse` succeeded: scheme plus optional host (the only
parts `validate_origin_url` inspects). -/
structure ParsedUrl where
  scheme : String
  host : Option UrlHost
deriving DecidableEq, Repr

/-- `src/error.rs` `RitcherError` (payloads modelled as strings). -/
inductive RitcherError where
  | OriginFetchError (msg : String)
  | PlaylistParseError (msg : String)
  | MpdParseError (msg : String)
  | PlaylistModifyError (msg : String)
  | InvalidSessionId (msg : String)
  | ConfigError (msg : String)
  | ConversionError (msg : String)
  | InvalidOrigin (msg : String)
  | InternalError (msg : String)
deriving DecidableEq, Repr

/-- `src/server/url_validation.rs` `is_blocked_ipv4` over the four octets. -/
def is_blocked_ipv4 (a b c _d : ℕ) : Bool :=
  a == 0
    || a == 10
    || (a == 100 && (b &&& 0xC0) == 64)
    || a == 127
    || (a == 169 && b == 254)
    || (a == 172 && (decide (16 ≤ b) && decide (b ≤ 31)))
    || (a == 192 && b == 0 && c == 0)
    || (a == 192 && b == 0 && c == 2)
    || (a == 192 && b == 168)
    || (a == 198 && (b &&& 0xFE) == 18)
    || (a == 198 && b == 51 && c == 100)
    || (a == 203 && b == 0 && c == 113)
    || decide (240 ≤ a)

/-- `src/server/url_validation.rs` `is_blocked_ipv6` over the eight 16-bit
segments (`is_unspecified` = all zero, `is_loopback` = `::1`). -/
def is_blocked_ipv6 (s0 s1 s2 s3 s4 s5 s6 s7 : ℕ) : Bool :=
  (s0 == 0 && s1 == 0 && s2 == 0 && s3 == 0 && s4 == 0 && s5 == 0 && s6 == 0 && s7 == 0)
    || (s0 == 0 && s1 == 0 && s2 == 0 && s3 == 0 && s4 == 0 && s5 == 0 && s6 == 0 && s7 == 1)
    || (s0 &&& 0xffc0) == 0xfe80
    || (s0 &&& 0xfe00) == 0xfc00
    || (s0 == 0x2001 && s1 == 0x0db8)

/-- `src/server/url_validation.rs` `extract_embedded_ipv4`. Bytes 12–15 of
`ip.octets()` are the bytes of segments 6 and 7 (big-endian within each
segment), modelled arithmetically. -/
def extract_embedded_ipv4 (s0 s1 s2 s3 s4 s5 s6 s7 : ℕ) : Option (ℕ × ℕ × ℕ × ℕ) :=
  let b12 := s6 / 256
  let b13 := s6 % 256
  let b14 := s7 / 256
  let b15 := s7 % 256
  if s0 == 0 && s1 == 0 && s2 == 0 && s3 == 0 && s4 == 0 && s5 == 0xffff then
    some (b12, b13, b14, b15)
  else if (s0 == 0 && s1 == 0 && s2 == 0 && s3 == 0 && s4 == 0 && s5 == 0)
      && (!(s6 == 0) || decide (1 < s7)) then
    some (b12, b13, b14, b15)
  else if s0 == 0x64 && s1 == 0xff9b then
    some (b12, b13, b14, b15)
  else none

/-- `src/server/url_validation.rs` `validate_origin_url`, on the parsed URL
(`Url::parse` failures, which also yield `InvalidOrigin`, happen upstream of
this model). -/
def validate_origin_url (url : ParsedUrl) : Except RitcherError Unit :=
  if ¬(url.scheme == ("http") || url.scheme == ("https")) then
    .error (.InvalidOrigin ("Scheme '" ++ url.scheme
      ++ "' not allowed — only http/https permitted"))
  else
    match url.host with
    | none => .error (.InvalidOrigin ("No host in URL"))
    | some (.ipv4 a b c d) =>
      if is_blocked_ipv4 a b c d then
        .error (.InvalidOrigin ("Origin address is not allowed"))
      else .ok ()
    | some (.ipv6 s0 s1 s2 s3 s4 s5 s6 s7) =>
      if is_blocked_ipv6 s0 s1 s2 s3 s4 s5 s6 s7 then
        .error (.InvalidOrigin ("Origin address is not allowed"))
      else
        match extract_embedded_ipv4 s0 s1 s2 s3 s4 s5 s6 s7 with
        | some (a, b, c, d) =>
          if is_blocked_ipv4 a b c d then
            .error (.InvalidOrigin ("Origin address is not allowed"))
          else .ok ()
        | none => .ok ()
    | some (.domain _) => .ok ()

/-- The claim's IPv4 block list, spelled as plain ranges: 0/8, 10/8,
100.64/10, 127/8, 169.254/16, 172.16/12, 192.0.0/24, 192.0.2/24, 192.168/16,
198.18/15, 198.51.100/24, 203.0.113/24, 240/4 (incl. 255.255.255.255). -/
def InBlockedV4Range (a b c _d : ℕ) : Prop :=
  a = 0 ∨ a = 10 ∨ (a = 100 ∧ 64 ≤ b ∧ b ≤ 127) ∨ a = 127 ∨ (a = 169 ∧ b = 254)
    ∨ (a = 172 ∧ 16 ≤ b ∧ b ≤ 31) ∨ (a = 192 ∧ b = 0 ∧ c = 0)
    ∨ (a = 192 ∧ b = 0 ∧ c = 2) ∨ (a = 192 ∧ b = 168)
    ∨ (a = 198 ∧ (b = 18 ∨ b = 19)) ∨ (a = 198 ∧ b = 51 ∧ c = 100)
    ∨ (a = 203 ∧ b = 0 ∧ c = 113) ∨ (240 ≤ a ∧ a ≤ 255)

/-- The claim's native IPv6 block list: `::`, `::1`, fe80::/10, fc00::/7,
2001:db8::/32. -/
def InBlockedV6Range (s0 s1 s2 s3 s4 s5 s6 s7 : ℕ) : Prop :=
  (s0 = 0 ∧ s1 = 0 ∧ s2 = 0 ∧ s3 = 0 ∧ s4 = 0 ∧ s5 = 0 ∧ s6 = 0 ∧ s7 = 0)
    ∨ (s0 = 0 ∧ s1 = 0 ∧ s2 = 0 ∧ s3 = 0 ∧ s4 = 0 ∧ s5 = 0 ∧ s6 = 0 ∧ s7 = 1)
    ∨ (0xfe80 ≤ s0 ∧ s0 ≤ 0xfebf) ∨ (0xfc00 ≤ s0 ∧ s0 ≤ 0xfdff)
    ∨ (s0 = 0x2001 ∧ s1 = 0x0db8)

/-- `validate_origin_url` refuses the URL with an `InvalidOrigin` error. -/
def RejectsHost (scheme : String) (h : UrlHost) : Prop :=
  ∃ m, validate_origin_url ⟨scheme, some h⟩ = .error (.InvalidOrigin m)

theorem land_c0_of_range {b : ℕ} (h1 : 64 ≤ b) (h2 : b ≤ 127) : b &&& 0xC0 = 64 := by
  have key : ∀ t, t < 64 → (64 + t) &&& 0xC0 = 64 := by decide
  have hb : b = 64 + (b - 64) := by omega
  rw [hb]
  exact key _ (by omega)

theorem land_fe_of_range {b : ℕ} (h : b = 18 ∨ b = 19) : b &&& 0xFE = 18 := by
  rcases h with h | h <;> subst h <;> decide

theorem land_ffc0_of_range {s : ℕ} (h1 : 0xfe80 ≤ s) (h2 : s ≤ 0xfebf) :
    s &&& 0xffc0 = 0xfe80 := by
  have key : ∀ t, t < 64 → (0xfe80 + t) &&& 0xffc0 = 0xfe80 := by decide
  have hs : s = 0xfe80 + (s - 0xfe80) := by omega
  rw [hs]
  exact key _ (by omega)

set_option maxRecDepth 8000 in
theorem land_fe00_of_range {s : ℕ} (h1 : 0xfc00 ≤ s) (h2 : s ≤ 0xfdff) :
    s &&& 0xfe00 = 0xfc00 := by
  have key : ∀ t, t < 512 → (0xfc00 + t) &&& 0xfe00 = 0xfc00 := by decide
  have hs : s = 0xfc00 + (s - 0xfc00) := by omega
  rw [hs]
  exact key _ (by omega)

theorem is_blocked_ipv4_of_range {a b c d : ℕ} (h : InBlockedV4Range a b c d) :
    is_blocked_ipv4 a b c d = true := by
  rcases h with h | h | ⟨h1, h2, h3⟩ | h | ⟨h1, h2⟩ | ⟨h1, h2, h3⟩ | ⟨h1, h2, h3⟩
    | ⟨h1, h2, h3⟩ | ⟨h1, h2⟩ | ⟨h1, h2⟩ | ⟨h1, h2, h3⟩ | ⟨h1, h2, h3⟩ | ⟨h1, h2⟩
  · simp [is_blocked_ipv4, h]
  · simp [is_blocked_ipv4, h]
  · have hm := land_c0_of_range h2 h3
    simp [is_blocked_ipv4, h1, hm]
  · simp [is_blocked_ipv4, h]
  · simp [is_blocked_ipv4, h1, h2]
  · simp [is_blocked_ipv4, h1, h2, h3]
  · simp [is_blocked_ipv4, h1, h2, h3]
  · simp [is_blocked_ipv4, h1, h2, h3]
  · simp [is_blocked_ipv4, h1, h2]
  · have hm := land_fe_of_range h2
    simp [is_blocked_ipv4, h1, hm]
  · simp [is_blocked_ipv4, h1, h2, h3]
  · simp [is_blocked_ipv4, h1, h2, h3]
  · simp [is_blocked_ipv4, h1]

theorem is_blocked_ipv6_of_range {s0 s1 s2 s3 s4 s5 s6 s7 : ℕ}
    (h : InBlockedV6Range s0 s1 s2 s3 s4 s5 s6 s7) :
    is_blocked_ipv6 s0 s1 s2 s3 s4 s5 s6 s7 = true := by
  rcases h with ⟨r0, r1, r2, r3, r4, r5, r6, r7⟩ | ⟨r0, r1, r2, r3, r4, r5, r6, r7⟩
    | ⟨h1, h2⟩ | ⟨h1, h2⟩ | ⟨h1, h2⟩
  · simp [is_blocked_ipv6, r0, r1, r2, r3, r4, r5, r6, r7]
  · simp [is_blocked_ipv6, r0, r1, r2, r3, r4, r5, r6, r7]
  · have hm := land_ffc0_of_range h1 h2
    simp [is_blocked_ipv6, hm]
  · have hm := land_fe00_of_range h1 h2
    simp [is_blocked_ipv6, hm]
  · simp [is_blocked_ipv6, h1, h2]

theorem rejects_of_v4_blocked {scheme : String} {a b c d : ℕ}
    (hb : is_blocked_ipv4 a b c d = true) : RejectsHost scheme (.ipv4 a b c d) := by
  by_cases hs : (scheme == ("http") || scheme == ("https")) = true
  · exact ⟨"Origin address is not allowed", by simp [validate_origin_url, hs, hb]⟩
  · exact ⟨"Scheme '" ++ scheme ++ "' not allowed — only http/https permitted",
      by simp [validate_origin_url, hs]⟩

theorem rejects_of_v6_native {scheme : String} {s0 s1 s2 s3 s4 s5 s6 s7 : ℕ}
    (hb : is_blocked_ipv6 s0 s1 s2 s3 s4 s5 s6 s7 = true) :
    RejectsHost scheme (.ipv6 s0 s1 s2 s3 s4 s5 s6 s7) := by
  by_cases hs : (scheme == ("http") || scheme == ("https")) = true
  · exact ⟨"Origin address is not allowed", by simp [validate_origin_url, hs, hb]⟩
  · exact ⟨"Scheme '" ++ scheme ++ "' not allowed — only http/https permitted",
      by simp [validate_origin_url, hs]⟩

theorem rejects_of_v6_embedded {scheme : String} {s0 s1 s2 s3 s4 s5 s6 s7 a b c d : ℕ}
    (he : extract_embedded_ipv4 s0 s1 s2 s3 s4 s5 s6 s7 = some (a, b, c, d))
    (hb : is_blocked_ipv4 a b c d = true) :
    RejectsHost scheme (.ipv6 s0 s1 s2 s3 s4 s5 s6 s7) := by
  by_cases hs : (scheme == ("http") || scheme == ("https")) = true
  · by_cases hn : is_blocked_ipv6 s0 s1 s2 s3 s4 s5 s6 s7 = true
    · exact ⟨"Origin address is not allowed", by simp [validate_origin_url, hs, hn]⟩
    · exact ⟨"Origin address is not allowed",
        by simp [validate_origin_url, hs, hn, he, hb]⟩
  · exact ⟨"Scheme '" ++ scheme ++ "' not allowed — only http/https permitted",
      by simp [validate_origin_url, hs]⟩

theorem extract_mapped (a b c d : ℕ) :
    extract_embedded_ipv4 0 0 0 0 0 0xffff (256 * a + b) (256 * c + d)
      = some ((256 * a + b) / 256, (256 * a + b) % 256,
              (256 * c + d) / 256, (256 * c + d) % 256) := by
  simp [extract_embedded_ipv4]

theorem extract_compat {s6 s7 : ℕ} (h : s6 ≠ 0 ∨ 1 < s7) :
    extract_embedded_ipv4 0 0 0 0 0 0 s6 s7
      = some (s6 / 256, s6 % 256, s7 / 256, s7 % 256) := by
  unfold extract_embedded_ipv4
  rw [if_neg (by simp)]
  rw [if_pos]
  rcases h with h | h <;> simp [h]

theorem extract_nat64 (s2 s3 s4 s5 s6 s7 : ℕ) :
    extract_embedded_ipv4 0x64 0xff9b s2 s3 s4 s5 s6 s7
      = some (s6 / 256, s6 % 256, s7 / 256, s7 % 256) := by
  simp [extract_embedded_ipv4]

/-- C2: `validate_origin_url` returns an `InvalidOrigin` error for every URL
whose host is an IPv4 in the block ranges; whose host is a natively blocked
IPv6 (`::`, `::1`, fe80::/10, fc00::/7, 2001:db8::/32); or whose IPv6 host
embeds a blocked IPv4 in the IPv4-mapped (`::ffff:V4`), IPv4-compatible
(`::V4`) or NAT64 (`64:ff9b::/96`, `64:ff9b:1::/48`) forms. -/
theorem validate_origin_url_blocks :
    (∀ (scheme : String) (a b c d : ℕ), a ≤ 255 → b ≤ 255 → c ≤ 255 → d ≤ 255 →
      InBlockedV4Range a b c d → RejectsHost scheme (.ipv4 a b c d)) ∧
    (∀ (scheme : String) (s0 s1 s2 s3 s4 s5 s6 s7 : ℕ),
      InBlockedV6Range s0 s1 s2 s3 s4 s5 s6 s7 →
      RejectsHost scheme (.ipv6 s0 s1 s2 s3 s4 s5 s6 s7)) ∧
    (∀ (scheme : String) (a b c d : ℕ), b ≤ 255 → d ≤ 255 →
      InBlockedV4Range a b c d →
      RejectsHost scheme (.ipv6 0 0 0 0 0 0xffff (256 * a + b) (256 * c + d))) ∧
    (∀ (scheme : String) (a b c d : ℕ), b ≤ 255 → d ≤ 255 →
      InBlockedV4Range a b c d →
      RejectsHost scheme (.ipv6 0 0 0 0 0 0 (256 * a + b) (256 * c + d))) ∧
    (∀ (scheme : String) (s2 s3 s4 s5 a b c d : ℕ), b ≤ 255 → d ≤ 255 →
      ((s2 = 0 ∧ s3 = 0 ∧ s4 = 0 ∧ s5 = 0) ∨ s2 = 1) →
      InBlockedV4Range a b c d →
      RejectsHost scheme (.ipv6 0x64 0xff9b s2 s3 s4 s5 (256 * a + b) (256 * c + d))) := by
  refine ⟨?_, ?_, ?_, ?_, ?_⟩
  · intro scheme a b c d _ _ _ _ h
    exact rejects_of_v4_blocked (is_blocked_ipv4_of_range h)
  · intro scheme s0 s1 s2 s3 s4 s5 s6 s7 h
    exact rejects_of_v6_native (is_blocked_ipv6_of_range h)
  · intro scheme a b c d hb hd h
    have h1 : (256 * a + b) / 256 = a := by omega
    have h2 : (256 * a + b) % 256 = b := by omega
    have h3 : (256 * c + d) / 256 = c := by omega
    have h4 : (256 * c + d) % 256 = d := by omega
    have he := extract_mapped a b c d
    rw [h1, h2, h3, h4] at he
    exact rejects_of_v6_embedded he (is_blocked_ipv4_of_range h)
  · intro scheme a b c d hb hd h
    by_cases hn : is_blocked_ipv6 0 0 0 0 0 0 (256 * a + b) (256 * c + d) = true
    · exact rejects_of_v6_native hn
    · have hn' : ¬ ((256 * a + b = 0 ∧ 256 * c + d = 0) ∨
          (256 * a + b = 0 ∧ 256 * c + d = 1)) := by
        intro hcon
        apply hn
        rcases hcon with ⟨x, y⟩ | ⟨x, y⟩ <;> simp [is_blocked_ipv6, x, y]
      have hor : 256 * a + b ≠ 0 ∨ 1 < 256 * c + d := by omega
      have he := extract_compat hor
      have h1 : (256 * a + b) / 256 = a := by omega
      have h2 : (256 * a + b) % 256 = b := by omega
      have h3 : (256 * c + d) / 256 = c := by omega
      have h4 : (256 * c + d) % 256 = d := by omega
      rw [h1, h2, h3, h4] at he
      exact rejects_of_v6_embedded he (is_blocked_ipv4_of_range h)
  · intro scheme s2 s3 s4 s5 a b c d hb hd _ h
    have he := extract_nat64 s2 s3 s4 s5 (256 * a + b) (256 * c + d)
    have h1 : (256 * a + b) / 256 = a := by omega
    have h2 : (256 * a + b) % 256 = b := by omega
    have h3 : (256 * c + d) / 256 = c := by omega
    have h4 : (256 * c + d) % 256 = d := by omega
    rw [h1, h2, h3, h4] at he
    exact rejects_of_v6_embedded he (is_blocked_ipv4_of_range h)

/-- Witness for `validate_origin_url_blocks`: the cloud-metadata IPv4, the
IPv6 loopback, the mapped form `::ffff:127.0.0.1`, the compatible form
`::10.0.0.1`, and the NAT64 form `64:ff9b::192.168.1.1`. -/
theorem validate_origin_url_blocks_witness :
    (InBlockedV4Range 169 254 169 254 ∧ InBlockedV6Range 0 0 0 0 0 0 0 1) ∧
    RejectsHost "http" (.ipv4 169 254 169 254) ∧
    RejectsHost "http" (.ipv6 0 0 0 0 0 0 0 1) ∧
    RejectsHost "http" (.ipv6 0 0 0 0 0 0xffff (256 * 127 + 0) (256 * 0 + 1)) ∧
    RejectsHost "https" (.ipv6 0 0 0 0 0 0 (256 * 10 + 0) (256 * 0 + 1)) ∧
    RejectsHost "http" (.ipv6 0x64 0xff9b 0 0 0 0 (256 * 192 + 168) (256 * 1 + 1)) := by
  refine ⟨⟨by unfold InBlockedV4Range; decide, by unfold InBlockedV6Range; decide⟩, ?_, ?_, ?_, ?_, ?_⟩
  · exact validate_origin_url_blocks.1 "http" 169 254 169 254
      (by decide) (by decide) (by decide) (by decide) (by unfold InBlockedV4Range; decide)
  · exact validate_origin_url_blocks.2.1 "http" 0 0 0 0 0 0 0 1
      (by unfold InBlockedV6Range; decide)
  · exact validate_origin_url_blocks.2.2.1 "http" 127 0 0 1
      (by decide) (by decide) (by unfold InBlockedV4Range; decide)
  · exact validate_origin_url_blocks.2.2.2.1 "https" 10 0 0 1
      (by decide) (by decide) (by unfold InBlockedV4Range; decide)
  · exact validate_origin_url_blocks.2.2.2.2 "http" 0 0 0 0 192 168 1 1
      (by decide) (by decide) (by decide) (by unfold InBlockedV4Range; decide)

/-- `src/ad/tracking.rs`: progress of segment `i` of `n` (`1.0` for a single
segment, else `i / (n - 1)`; thresholds `0.25/0.5/0.75` are exact dyadics so
the `f64` arithmetic is modelled exactly in `ℚ`). -/
def progress (segment_index total_segments : ℕ) : ℚ :=
  if total_segments = 1 then 1
  else (segment_index : ℚ) / ((total_segments - 1 : ℕ) : ℚ)

/-- `src/ad/tracking.rs`: progress of the previous segment, `-1.0` sentinel
on the first segment. -/
def prevProgress (segment_index total_segments : ℕ) : ℚ :=
  if segment_index = 0 ∨ total_segments = 1 then -1
  else ((segment_index - 1 : ℕ) : ℚ) / ((total_segments - 1 : ℕ) : ℚ)

/-- The `match event.event.as_str()` arm of `events_for_segment`. -/
def shouldFire (name : String) (segment_index total_segments : ℕ) : Bool :=
  match name with
  | "start" => segment_index == 0
  | "firstQuartile" =>
    decide (progress segment_index total_segments ≥ 1/4
      ∧ prevProgress segment_index total_segments < 1/4)
  | "midpoint" =>
    decide (progress segment_index total_segments ≥ 1/2
      ∧ prevProgress segment_index total_segments < 1/2)
  | "thirdQuartile" =>
    decide (progress segment_index total_segments ≥ 3/4
      ∧ prevProgress segment_index total_segments < 3/4)
  | "complete" => segment_index == total_segments - 1
  | _ => false

/-- `src/ad/tracking.rs` `events_for_segment`. -/
def events_for_segment (segment_index total_segments : ℕ)
    (tracking_events : List TrackingEvent) : List TrackingEvent :=
  if total_segments = 0 then []
  else tracking_events.filter (fun e => shouldFire e.event segment_index total_segments)

theorem countP_congr_eq {α : Type} {p q : α → Bool} {l : List α}
    (h : ∀ a ∈ l, p a = q a) : l.countP p = l.countP q := by
  induction l with
  | nil => rfl
  | cons a l ih =>
    rw [List.countP_cons, List.countP_cons, h a (by simp),
      ih (fun x hx => h x (by simp [hx]))]

theorem countP_eq_zero_of_false {α : Type} {p : α → Bool} {l : List α}
    (h : ∀ a ∈ l, p a = false) : l.countP p = 0 := by
  induction l with
  | nil => rfl
  | cons a l ih =>
    rw [List.countP_cons, h a (by simp), ih (fun x hx => h x (by simp [hx]))]
    rfl

theorem countP_range_eq_single (n k : ℕ) (hk : k < n) :
    (List.range n).countP (fun i => i == k) = 1 := by
  induction n with
  | zero => omega
  | succ n ih =>
    rw [List.range_succ, List.countP_append]
    rcases Nat.lt_or_ge k n with h | h
    · rw [ih h]
      have : ((n == k) : Bool) = false := by simp; omega
      simp [List.countP_cons, this]
    · have hkn : k = n := by omega
      subst hkn
      have hz : (List.range k).countP (fun i => i == k) = 0 :=
        countP_eq_zero_of_false (fun a ha => by
          have : a < k := List.mem_range.1 ha
          simp; omega)
      simp [hz, List.countP_cons]

/-- For `n ≥ 2` and a threshold `0 < T ≤ 1`, exactly one segment index in
`[0, n)` crosses the threshold: the least `i` with `T ≤ i / (n-1)`. -/
theorem countP_range_threshold (n : ℕ) (hn : 2 ≤ n) (T : ℚ) (hT0 : 0 < T) (hT1 : T ≤ 1) :
    (List.range n).countP
      (fun i => decide (progress i n ≥ T ∧ prevProgress i n < T)) = 1 := by
  have hn1 : n ≠ 1 := by omega
  have hmq : (0 : ℚ) < ((n - 1 : ℕ) : ℚ) := by
    have h1 : 1 ≤ n - 1 := by omega
    exact_mod_cast Nat.lt_of_lt_of_le Nat.zero_lt_one h1
  set m : ℚ := ((n - 1 : ℕ) : ℚ) with hm
  set c : ℕ := Nat.ceil (T * m) with hc
  have hcpos : 1 ≤ c := by
    rw [hc]
    exact Nat.ceil_pos.2 (mul_pos hT0 hmq)
  have hclt : c < n := by
    have h1 : T * m ≤ m := by
      calc T * m ≤ 1 * m := mul_le_mul_of_nonneg_right hT1 (le_of_lt hmq)
        _ = m := one_mul m
    have h2 : c ≤ n - 1 := by
      rw [hc]
      exact Nat.ceil_le.2 (by rw [hm] at h1 ⊢; exact_mod_cast h1)
    omega
  have hpt : ∀ i ∈ List.range n,
      (decide (progress i n ≥ T ∧ prevProgress i n < T)) = (i == c) := by
    intro i hi
    rcases Nat.eq_zero_or_pos i with hi0 | hi1
    · subst hi0
      have hp : progress 0 n = 0 := by simp [progress, hn1]
      have hno : ¬ (progress 0 n ≥ T ∧ prevProgress 0 n < T) := by
        rw [hp]
        rintro ⟨hge, _⟩
        linarith
      rw [decide_eq_false hno]
      have : ((0 == c) : Bool) = false := by simp; omega
      rw [this]
    · have hp : progress i n = (i : ℚ) / m := by simp [progress, hn1, hm]
      have hpp : prevProgress i n = ((i - 1 : ℕ) : ℚ) / m := by
        simp [prevProgress, show ¬(i = 0 ∨ n = 1) by omega, hm]
      have hcast : ((i - 1 : ℕ) : ℚ) = (i : ℚ) - 1 := by
        have h := Nat.cast_sub (R := ℚ) hi1
        simpa using h
      have e1 : (T ≤ progress i n) ↔ (c ≤ i) := by
        rw [hp, le_div_iff₀ hmq, hc]
        exact Iff.symm Nat.ceil_le
      have e2 : (prevProgress i n < T) ↔ (i ≤ c) := by
        rw [hpp, div_lt_iff₀ hmq, hcast]
        constructor
        · intro h
          by_contra hcon
          have h3 : c ≤ i - 1 := by omega
          have h4 : T * m ≤ ((i - 1 : ℕ) : ℚ) := Nat.ceil_le.1 (hc ▸ h3)
          rw [hcast] at h4
          linarith
        · intro h
          by_contra hcon
          have h4 : T * m ≤ ((i - 1 : ℕ) : ℚ) := by rw [hcast]; linarith
          have h5 : c ≤ i - 1 := by rw [hc]; exact Nat.ceil_le.2 h4
          omega
      have hiff : (progress i n ≥ T ∧ prevProgress i n < T) ↔ i = c := by
        rw [ge_iff_le, e1, e2]
        omega
      apply Bool.eq_iff_iff.2
      simp [hiff]
  rw [countP_congr_eq hpt]
  exact countP_range_eq_single n c hclt

theorem sum_map_ite_countP (l : List ℕ) (p : ℕ → Bool) :
    (l.map (fun i => if p i then 1 else 0)).sum = l.countP p := by
  induction l with
  | nil => rfl
  | cons a l ih =>
    rw [List.map_cons, List.sum_cons, List.countP_cons, ih]
    by_cases h : p a = true
    · simp [h, Nat.add_comm]
    · rw [Bool.not_eq_true] at h
      simp [h]

theorem shouldFire_start (i k : ℕ) : shouldFire "start" i k = (i == 0) := rfl

theorem shouldFire_fq (i k : ℕ) :
    shouldFire "firstQuartile" i k
      = decide (progress i k ≥ 1/4 ∧ prevProgress i k < 1/4) := rfl

theorem shouldFire_mid (i k : ℕ) :
    shouldFire "midpoint" i k
      = decide (progress i k ≥ 1/2 ∧ prevProgress i k < 1/2) := rfl

theorem shouldFire_tq (i k : ℕ) :
    shouldFire "thirdQuartile" i k
      = decide (progress i k ≥ 3/4 ∧ prevProgress i k < 3/4) := rfl

theorem shouldFire_complete (i k : ℕ) : shouldFire "complete" i k = (i == k - 1) := rfl

theorem countP_range_threshold_all (n : ℕ) (hn : 1 ≤ n) (T : ℚ)
    (hT0 : 0 < T) (hT1 : T ≤ 1) :
    (List.range n).countP
      (fun i => decide (progress i n ≥ T ∧ prevProgress i n < T)) = 1 := by
  rcases Nat.lt_or_ge n 2 with h2 | h2
  · have hn1 : n = 1 := by omega
    subst hn1
    have hp : progress 0 1 = 1 := by simp [progress]
    have hpp : prevProgress 0 1 = -1 := by simp [prevProgress]
    have hd : (decide (progress 0 1 ≥ T ∧ prevProgress 0 1 < T)) = true := by
      rw [decide_eq_true_eq, hp, hpp]
      constructor <;> linarith
    rw [show List.range 1 = [0] from rfl]
    rw [List.countP_cons, hd]
    rfl
  · exact countP_range_threshold n h2 T hT0 hT1

/-- C4: for any `n ≥ 1` and a tracking-event list containing exactly one
event of each of the five quartile names, iterating `events_for_segment`
over all segments fires each of the five events exactly once. -/
theorem events_for_segment_coverage :
    ∀ (n : ℕ) (evs : List TrackingEvent), 1 ≤ n →
      (∀ nm ∈ (["start", "firstQuartile", "midpoint", "thirdQuartile",
          "complete"] : List String),
        evs.countP (fun e => e.event == nm) = 1) →
      ∀ nm ∈ (["start", "firstQuartile", "midpoint", "thirdQuartile",
          "complete"] : List String),
        (((List.range n).map (fun i => events_for_segment i n evs)).flatten).countP
          (fun e => e.event == nm) = 1 := by
  intro n evs hn hcount nm hnm
  have hn0 : n ≠ 0 := by omega
  have hseg : ∀ i, (events_for_segment i n evs).countP (fun e => e.event == nm)
      = if shouldFire nm i n then 1 else 0 := by
    intro i
    unfold events_for_segment
    rw [if_neg hn0, List.countP_filter]
    by_cases hf : shouldFire nm i n = true
    · rw [if_pos hf, countP_congr_eq (q := fun e => e.event == nm) ?_]
      · exact hcount nm hnm
      · intro e _
        by_cases hev : (e.event == nm) = true
        · have heq : e.event = nm := by simpa using hev
          simp [hev, heq, hf]
        · rw [Bool.not_eq_true] at hev
          simp [hev]
    · rw [Bool.not_eq_true] at hf
      rw [if_neg (by simp [hf])]
      apply countP_eq_zero_of_false
      intro e _
      by_cases hev : (e.event == nm) = true
      · have heq : e.event = nm := by simpa using hev
        simp [hev, heq, hf]
      · rw [Bool.not_eq_true] at hev
        simp [hev]
  rw [List.countP_flatten, List.map_map]
  have hmap : (List.range n).map
      ((fun l => l.countP (fun e => e.event == nm)) ∘ (fun i => events_for_segment i n evs))
      = (List.range n).map (fun i => if shouldFire nm i n then 1 else 0) := by
    apply List.map_congr_left
    intro i _
    exact hseg i
  rw [hmap, sum_map_ite_countP]
  have hmem : nm = "start" ∨ nm = "firstQuartile" ∨ nm = "midpoint"
      ∨ nm = "thirdQuartile" ∨ nm = "complete" := by simpa using hnm
  rcases hmem with h | h | h | h | h <;> subst h
  · rw [countP_congr_eq (fun i _ => shouldFire_start i n)]
    exact countP_range_eq_single n 0 (by omega)
  · rw [countP_congr_eq (fun i _ => shouldFire_fq i n)]
    exact countP_range_threshold_all n hn (1/4) (by norm_num) (by norm_num)
  · rw [countP_congr_eq (fun i _ => shouldFire_mid i n)]
    exact countP_range_threshold_all n hn (1/2) (by norm_num) (by norm_num)
  · rw [countP_congr_eq (fun i _ => shouldFire_tq i n)]
    exact countP_range_threshold_all n hn (3/4) (by norm_num) (by norm_num)
  · rw [countP_congr_eq (fun i _ => shouldFire_complete i n)]
    exact countP_range_eq_single n (n - 1) (by omega)

/-- Witness for `events_for_segment_coverage` with two segments and the
standard five-event list. -/
theorem events_for_segment_coverage_witness :
    ((1 : ℕ) ≤ 2 ∧
      (∀ nm ∈ (["start", "firstQuartile", "midpoint", "thirdQuartile",
          "complete"] : List String),
        ([⟨"start", "u1"⟩, ⟨"firstQuartile", "u2"⟩, ⟨"midpoint", "u3"⟩,
          ⟨"thirdQuartile", "u4"⟩, ⟨"complete", "u5"⟩] : List TrackingEvent).countP
          (fun e => e.event == nm) = 1)) ∧
    (((List.range 2).map (fun i => events_for_segment i 2
        ([⟨"start", "u1"⟩, ⟨"firstQuartile", "u2"⟩, ⟨"midpoint", "u3"⟩,
          ⟨"thirdQuartile", "u4"⟩, ⟨"complete", "u5"⟩] : List TrackingEvent))).flatten).countP
      (fun e => e.event == "midpoint") = 1 := by
  refine ⟨⟨by omega, by decide⟩, ?_⟩
  exact events_for_segment_coverage 2
    ([⟨"start", "u1"⟩, ⟨"firstQuartile", "u2"⟩, ⟨"midpoint", "u3"⟩,
      ⟨"thirdQuartile", "u4"⟩, ⟨"complete", "u5"⟩] : List TrackingEvent)
    (by omega) (by decide) "midpoint" (by decide)

/-- m3u8-rs `AlternativeMediaType`. -/
inductive AlternativeMediaType where
  | audio
  | video
  | subtitles
  | closedcaptions
  | other (s : String)
deriving DecidableEq, Repr

/-- m3u8-rs `AlternativeMedia` (fields the rewrite touches or preserves). -/
structure AlternativeMedia where
  media_type : AlternativeMediaType
  uri : Option String
  group_id : String
  name : String
deriving DecidableEq, Repr

/-- m3u8-rs `VariantStream` (fields the rewrite touches or preserves). -/
structure VariantStream where
  uri : String
  bandwidth : ℕ
  codecs : Option String
deriving DecidableEq, Repr

/-- m3u8-rs `MasterPlaylist`. -/
structure MasterPlaylist where
  version : Option ℕ
  variants : List VariantStream
  alternatives : List AlternativeMedia
  independent_segments : Bool
  unknown_tags : List ExtTag
deriving DecidableEq, Repr

/-- m3u8-rs `Playlist`. -/
inductive Playlist where
  | master (m : MasterPlaylist)
  | media (m : MediaPlaylist)
deriving DecidableEq, Repr

/-- Does `pat` occur as a contiguous run in `l`? -/
def containsGo (pat : List Char) : List Char → Bool
  | [] => pat.isEmpty
  | x :: xs => pat.isPrefixOf (x :: xs) || containsGo pat xs

/-- Model of Rust `str::contains(pat)`. -/
def containsSubstr (s pat : String) : Bool :=
  containsGo pat.toList s.toList

/-- Model of Rust `str::starts_with(pat)`. -/
def strStartsWith (s pre : String) : Bool :=
  pre.toList.isPrefixOf s.toList

/-- Split at the LAST occurrence of `c` (Rust `str::rsplit_once`):
prefers a split found further right. -/
def rsplitGo (c : Char) : List Char → Option (List Char × List Char)
  | [] => none
  | x :: xs =>
    match rsplitGo c xs with
    | some p => some (x :: p.1, p.2)
    | none => if x = c then some ([], xs) else none

/-- Rust `str::rsplit_once(c)`: `(before_last_c, after_last_c)`. -/
def rsplitOnce (s : String) (c : Char) : Option (String × String) :=
  (rsplitGo c s.toList).map (fun p => (⟨p.1⟩, ⟨p.2⟩))

/-- The per-segment URI rewrite of `rewrite_content_urls`. -/
def rewriteSegmentUri (seg : MediaSegment) (session_id base_url origin_base : String) :
    MediaSegment :=
  if containsSubstr seg.uri ("/stitch/") then seg
  else if strStartsWith seg.uri ("http") then
    let p := (rsplitOnce seg.uri '/').getD ("", seg.uri)
    { seg with uri := base_url ++ "/stitch/" ++ session_id ++ "/segment/"
        ++ p.2 ++ "?origin=" ++ p.1 }
  else
    { seg with uri := base_url ++ "/stitch/" ++ session_id ++ "/segment/"
        ++ seg.uri ++ "?origin=" ++ origin_base }

/-- `src/hls/parser.rs` `rewrite_content_urls`. -/
def rewrite_content_urls (playlist : Playlist) (session_id base_url origin_base : String) :
    Except RitcherError Playlist :=
  match playlist with
  | .media mp =>
    .ok (.media { mp with
      segments := mp.segments.map
        (fun seg => rewriteSegmentUri seg session_id base_url origin_base) })
  | .master m => .ok (.master m)

/-- The URI rewrite shared by variants and alternative media in
`rewrite_master_urls` (the code uses the same format string for both). -/
def rewriteVariantUri (uri : String) (session_id base_url origin_base : String) : String :=
  let absolute := if strStartsWith uri ("http") then uri else origin_base ++ "/" ++ uri
  base_url ++ "/stitch/" ++ session_id ++ "/playlist.m3u8?origin=" ++ absolute

/-- `src/hls/parser.rs` `rewrite_master_urls`. -/
def rewrite_master_urls (playlist : Playlist) (session_id base_url origin_base : String) :
    Except RitcherError Playlist :=
  match playlist with
  | .master m =>
    .ok (.master { m with
      variants := m.variants.map
        (fun v => { v with uri := rewriteVariantUri v.uri session_id base_url origin_base }),
      alternatives := m.alternatives.map
        (fun alt => { alt with
          uri := alt.uri.map
            (fun u => rewriteVariantUri u session_id base_url origin_base) }) })
  | .media mp => .ok (.media mp)

theorem toList_append (a b : String) : (a ++ b).toList = a.toList ++ b.toList := rfl

theorem containsGo_false_of_head_notMem {c : Char} {p l : List Char} (h : c ∉ l) :
    containsGo (c :: p) l = false := by
  induction l with
  | nil => rfl
  | cons x xs ih =>
    have hcx : c ≠ x := fun he => h (by simp [he])
    have hnx : c ∉ xs := fun hm => h (by simp [hm])
    simp [containsGo, List.isPrefixOf, hcx, ih hnx]

/-- C6 counterexample: a master playlist with one subtitle alternative; the
rewritten alternative URI is exactly the variant-style playlist-endpoint
rewrite, and contains no `&track=subtitles`. -/
def exSubAlt : AlternativeMedia := ⟨.subtitles, some "subs/en.m3u8", "subs", "English"⟩

def exMaster : MasterPlaylist :=
  ⟨some 3, [⟨"video/playlist.m3u8", 2000000, none⟩], [exSubAlt], false, []⟩

theorem rewrite_master_track_param_false :
    rewrite_master_urls (.master exMaster) "s1" "http://st" "http://o"
      = .ok (.master { exMaster with
          variants := [⟨"http://st/stitch/s1/playlist.m3u8?origin=http://o/video/playlist.m3u8",
            2000000, none⟩],
          alternatives := [⟨.subtitles,
            some "http://st/stitch/s1/playlist.m3u8?origin=http://o/subs/en.m3u8",
            "subs", "English"⟩] }) ∧
    containsSubstr "http://st/stitch/s1/playlist.m3u8?origin=http://o/subs/en.m3u8"
      ("&track=subtitles") = false := by
  constructor
  · rfl
  · decide

/-- C6 (amended): `rewrite_master_urls` rewrites every alternative-media URI
through the stitcher playlist endpoint with the same format as variant URIs,
leaving the media type untouched and appending NO `track` query parameter
(when no input component contains `&`, the result has no `&track=` at all). -/
theorem rewrite_master_urls_alternatives :
    (∀ (m : MasterPlaylist) (session_id base_url origin_base : String),
      ∃ m2 : MasterPlaylist,
        rewrite_master_urls (.master m) session_id base_url origin_base
          = .ok (.master m2) ∧
        m2.alternatives.map (fun a => a.uri)
          = m.alternatives.map (fun a =>
              a.uri.map (fun u => rewriteVariantUri u session_id base_url origin_base)) ∧
        m2.alternatives.map (fun a => a.media_type)
          = m.alternatives.map (fun a => a.media_type) ∧
        m2.variants.map (fun v => v.uri)
          = m.variants.map
              (fun v => rewriteVariantUri v.uri session_id base_url origin_base)) ∧
    (∀ (session_id base_url origin_base u : String),
      ('&' ∉ session_id.toList) → ('&' ∉ base_url.toList) →
      ('&' ∉ origin_base.toList) → ('&' ∉ u.toList) →
      containsSubstr (rewriteVariantUri u session_id base_url origin_base)
        ("&track=") = false) := by
  constructor
  · intro m session_id base_url origin_base
    refine ⟨_, rfl, ?_, ?_, ?_⟩ <;> simp [List.map_map, Function.comp]
  · intro session_id base_url origin_base u hs hb ho hu
    have hpat : ("&track=").toList = '&' :: ("track=").toList := rfl
    unfold containsSubstr
    rw [hpat]
    apply containsGo_false_of_head_notMem
    intro hmem
    unfold rewriteVariantUri at hmem
    by_cases hsw : strStartsWith u ("http") = true <;>
      simp [hsw, toList_append] at hmem <;> tauto

/-- Witness for `rewrite_master_urls_alternatives`. -/
theorem rewrite_master_urls_alternatives_witness :
    ('&' ∉ ("s1" : String).toList ∧ '&' ∉ ("http://st" : String).toList ∧
      '&' ∉ ("http://o" : String).toList ∧ '&' ∉ ("subs/en.m3u8" : String).toList) ∧
    (∃ m2 : MasterPlaylist,
      rewrite_master_urls (.master exMaster) "s1" "http://st" "http://o"
        = .ok (.master m2) ∧
      m2.alternatives.map (fun a => a.uri)
        = exMaster.alternatives.map (fun a =>
            a.uri.map (fun u => rewriteVariantUri u "s1" "http://st" "http://o")) ∧
      m2.alternatives.map (fun a => a.media_type)
        = exMaster.alternatives.map (fun a => a.media_type) ∧
      m2.variants.map (fun v => v.uri)
        = exMaster.variants.map
            (fun v => rewriteVariantUri v.uri "s1" "http://st" "http://o")) ∧
    containsSubstr (rewriteVariantUri "subs/en.m3u8" "s1" "http://st" "http://o")
      ("&track=") = false := by
  refine ⟨⟨by decide, by decide, by decide, by decide⟩, ?_, ?_⟩
  · exact rewrite_master_urls_alternatives.1 exMaster "s1" "http://st" "http://o"
  · exact rewrite_master_urls_alternatives.2 "s1" "http://st" "http://o" "subs/en.m3u8"
      (by decide) (by decide) (by decide) (by decide)

/-- Frame relation for one segment of `rewrite_content_urls`: every field
except `uri` is unchanged, and a URI already routed through `/stitch/` is
left entirely untouched. -/
def SegFrame (s s2 : MediaSegment) : Prop :=
  s2.duration = s.duration ∧ s2.title = s.title ∧ s2.byte_range = s.byte_range ∧
  s2.discontinuity = s.discontinuity ∧ s2.key = s.key ∧ s2.map = s.map ∧
  s2.program_date_time = s.program_date_time ∧ s2.daterange = s.daterange ∧
  s2.unknown_tags = s.unknown_tags ∧
  (containsSubstr s.uri ("/stitch/") = true → s2 = s)

theorem forall2_map_self {α β : Type} (R : α → β → Prop) (f : α → β) :
    ∀ l : List α, (∀ a ∈ l, R a (f a)) → List.Forall₂ R l (l.map f) := by
  intro l h
  induction l with
  | nil => exact List.Forall₂.nil
  | cons a l ih =>
    exact List.Forall₂.cons (h a (by simp)) (ih (fun x hx => h x (by simp [hx])))

/-- C10: `rewrite_content_urls` returns a master playlist unchanged; on a
media playlist it preserves every playlist-level field and the number and
order of segments, changes only segment `uri`s, and leaves segments whose
URI already contains `/stitch/` untouched. -/
theorem rewrite_content_urls_frame :
    ∀ (mp : MediaPlaylist) (m : MasterPlaylist) (session_id base_url origin_base : String),
      rewrite_content_urls (.master m) session_id base_url origin_base
        = .ok (.master m) ∧
      ∃ segs2 : List MediaSegment,
        rewrite_content_urls (.media mp) session_id base_url origin_base
          = .ok (.media { mp with segments := segs2 }) ∧
        List.Forall₂ SegFrame mp.segments segs2 := by
  intro mp m session_id base_url origin_base
  refine ⟨rfl, mp.segments.map
    (fun seg => rewriteSegmentUri seg session_id base_url origin_base), rfl, ?_⟩
  apply forall2_map_self
  intro s _
  by_cases h : containsSubstr s.uri ("/stitch/") = true
  · simp [rewriteSegmentUri, h, SegFrame]
  · by_cases h2 : strStartsWith s.uri ("http") = true <;>
      simp [rewriteSegmentUri, h, h2, SegFrame]

/-- Witness for `rewrite_content_urls_frame` at a concrete playlist with one
plain segment and one already-stitched segment. -/
theorem rewrite_content_urls_frame_witness :
    rewrite_content_urls
        (.master exMaster) "s" "http://st" "http://o" = .ok (.master exMaster) ∧
    ∃ segs2 : List MediaSegment,
      rewrite_content_urls
          (.media (mkPlaylist [plainSeg "seg0.ts",
            plainSeg "http://st/stitch/s/ad/break-0-seg-0.ts"])) "s" "http://st" "http://o"
        = .ok (.media { mkPlaylist [plainSeg "seg0.ts",
            plainSeg "http://st/stitch/s/ad/break-0-seg-0.ts"] with segments := segs2 }) ∧
      List.Forall₂ SegFrame
        (mkPlaylist [plainSeg "seg0.ts",
          plainSeg "http://st/stitch/s/ad/break-0-seg-0.ts"]).segments segs2 := by
  have h := rewrite_content_urls_frame
    (mkPlaylist [plainSeg "seg0.ts", plainSeg "http://st/stitch/s/ad/break-0-seg-0.ts"])
    exMaster "s" "http://st" "http://o"
  exact h

/-- `src/ad/vast.rs` `MediaFile`. -/
structure MediaFile where
  url : String
  delivery : String
  mime_type : String
  width : ℕ
  height : ℕ
  bitrate : Option ℕ
  codec : Option String
deriving DecidableEq, Repr

/-- `src/ad/vast.rs` `LinearAd`. -/
structure LinearAd where
  duration : F32Val
  media_files : List MediaFile
  tracking_events : List TrackingEvent
deriving DecidableEq, Repr

/-- `src/ad/vast.rs` `Creative`. -/
structure Creative where
  id : String
  linear : Option LinearAd
deriving DecidableEq, Repr

/-- `src/ad/vast.rs` `InLineAd`. -/
structure InLineAd where
  ad_system : String
  ad_title : String
  creatives : List Creative
  impression_urls : List String
  error_url : Option String
deriving DecidableEq, Repr

/-- `src/ad/vast.rs` `WrapperAd`. -/
structure WrapperAd where
  ad_tag_uri : String
  impression_urls : List String
  tracking_events : List TrackingEvent
deriving DecidableEq, Repr

/-- `src/ad/vast.rs` `VastAdType`. -/
inductive VastAdType where
  | inLine (ad : InLineAd)
  | wrapper (ad : WrapperAd)
deriving DecidableEq, Repr

/-- `src/ad/vast.rs` `VastAd`. -/
structure VastAd where
  id : String
  ad_type : VastAdType
deriving DecidableEq, Repr

/-- `src/ad/vast.rs` `VastResponse`. -/
structure VastResponse where
  version : String
  ads : List VastAd
deriving DecidableEq, Repr

/-- Ordering used by `select_best_media_file`'s descending bitrate sort:
`Option<u32>` compares with `None` lowest. -/
def bitrateLt (x y : Option ℕ) : Bool :=
  match x, y with
  | none, none => false
  | none, some _ => true
  | some _, none => false
  | some a, some b => decide (a < b)

/-- `src/ad/vast.rs` `select_best_media_file`: first HLS media file if any;
else the first progressive MP4 of maximal bitrate (the Rust code stably
sorts descending by bitrate and takes the head, i.e. the earliest maximal
element). -/
def select_best_media_file (media_files : List MediaFile) : Option MediaFile :=
  match media_files.find? (fun f => f.mime_type == ("application/x-mpegURL")) with
  | some f => some f
  | none =>
    let progressive := media_files.filter
      (fun f => f.delivery == ("progressive") && f.mime_type == ("video/mp4"))
    progressive.foldl
      (fun acc f =>
        match acc with
        | none => some f
        | some g => if bitrateLt g.bitrate f.bitrate then some f else some g)
      none

/-- One resolved creative from `fetch_vast`: `(url, duration, is_hls)`. -/
def inlineCreatives (ad : InLineAd) : List (String × F32Val × Bool) :=
  ad.creatives.flatMap (fun c =>
    match c.linear with
    | none => []
    | some lin =>
      match select_best_media_file lin.media_files with
      | none => []
      | some mf => [(mf.url, lin.duration, mf.mime_type == ("application/x-mpegURL"))])

/-- Fuel-indexed body of `fetch_vast`: `fuel = max_wrapper_depth + 1 - depth`
(zero fuel is exactly the `depth > max_wrapper_depth` guard). The HTTP
fetch-with-retry plus `parse_vast` pipeline is abstracted as
`fetch : String → Option VastResponse` (`none` = transport or parse
failure). A failed wrapper recursion contributes no creatives. -/
def fetchVastAux (fetch : String → Option VastResponse) : ℕ → String →
    Option (List (String × F32Val × Bool))
  | 0, _ => none
  | fuel + 1, url =>
    match fetch url with
    | none => none
    | some resp =>
      some (resp.ads.flatMap (fun ad =>
        match ad.ad_type with
        | .inLine inl => inlineCreatives inl
        | .wrapper w => (fetchVastAux fetch fuel w.ad_tag_uri).getD []))

/-- `src/ad/vast_provider.rs` `fetch_vast` (with `self.max_wrapper_depth`
explicit): guard `depth > max_wrapper_depth → None`, wrappers recurse at
`depth + 1`. -/
def fetch_vast (fetch : String → Option VastResponse) (max_wrapper_depth : ℕ)
    (url : String) (depth : ℕ) : Option (List (String × F32Val × Bool)) :=
  fetchVastAux fetch (max_wrapper_depth + 1 - depth) url

/-- A single-ad wrapper VAST response redirecting to `target`. -/
def wrapperResponse (target : String) : VastResponse :=
  ⟨"3.0", [⟨"w", .wrapper ⟨target, [], []⟩⟩]⟩

/-- A single-ad inline VAST response carrying `ad`. -/
def inlineResponse (ad : InLineAd) : VastResponse :=
  ⟨"3.0", [⟨"i", .inLine ad⟩]⟩

theorem fetchVastAux_chain (fetch : String → Option VastResponse) (n : ℕ)
    (us : ℕ → String) (c : InLineAd)
    (hwrap : ∀ k, k < n → fetch (us k) = some (wrapperResponse (us (k + 1))))
    (hinl : fetch (us n) = some (inlineResponse c)) :
    ∀ (fuel k : ℕ), k ≤ n →
      fetchVastAux fetch fuel (us k)
        = if fuel = 0 then none
          else some (if n - k < fuel then inlineCreatives c else []) := by
  intro fuel
  induction fuel with
  | zero => intro k _; rfl
  | succ fuel ih =>
    intro k hk
    by_cases hkn : k = n
    · subst hkn
      simp [fetchVastAux, hinl, inlineResponse, Nat.sub_self]
    · have hlt : k < n := by omega
      have hrec := ih (k + 1) (by omega)
      by_cases hf : fuel = 0
      · subst hf
        have hrec0 : fetchVastAux fetch 0 (us (k + 1)) = none := rfl
        simp [fetchVastAux, hwrap k hlt, wrapperResponse, hrec0,
          show ¬(n - k < 0 + 1) by omega]
      · rw [if_neg hf] at hrec
        by_cases h2 : n - (k + 1) < fuel
        · simp [fetchVastAux, hwrap k hlt, wrapperResponse, hrec, h2,
            show n - k < fuel + 1 by omega]
        · simp [fetchVastAux, hwrap k hlt, wrapperResponse, hrec, h2,
            show ¬(n - k < fuel + 1) by omega]

theorem fetchVastAux_cyclic (fetch : String → Option VastResponse)
    (hcyc : ∀ v, fetch v = some (wrapperResponse v)) :
    ∀ (fuel : ℕ) (url : String),
      fetchVastAux fetch fuel url = if fuel = 0 then none else some [] := by
  intro fuel
  induction fuel with
  | zero => intro url; rfl
  | succ fuel ih =>
    intro url
    by_cases hf : fuel = 0 <;>
      simp [fetchVastAux, hcyc url, wrapperResponse, ih url, hf]

/-- C7: `fetch_vast` invoked at any depth above `max_wrapper_depth` returns
`None`; a pure wrapper chain of more than `max_wrapper_depth` redirects
yields no creatives (`some []`) while a chain within the bound yields its
inline creatives; and on a cyclic (self-redirecting) wrapper the recursion
terminates with no creatives. -/
theorem fetch_vast_depth_bound :
    (∀ (fetch : String → Option VastResponse) (max_wrapper_depth depth : ℕ)
        (url : String),
      max_wrapper_depth < depth →
      fetch_vast fetch max_wrapper_depth url depth = none) ∧
    (∀ (fetch : String → Option VastResponse) (max_wrapper_depth n : ℕ)
        (us : ℕ → String) (c : InLineAd),
      (∀ k, k < n → fetch (us k) = some (wrapperResponse (us (k + 1)))) →
      fetch (us n) = some (inlineResponse c) →
      (max_wrapper_depth < n →
        fetch_vast fetch max_wrapper_depth (us 0) 0 = some []) ∧
      (n ≤ max_wrapper_depth →
        fetch_vast fetch max_wrapper_depth (us 0) 0 = some (inlineCreatives c))) ∧
    (∀ (fetch : String → Option VastResponse) (max_wrapper_depth : ℕ) (url : String),
      (∀ v, fetch v = some (wrapperResponse v)) →
      fetch_vast fetch max_wrapper_depth url 0 = some []) := by
  refine ⟨?_, ?_, ?_⟩
  · intro fetch maxd depth url h
    unfold fetch_vast
    rw [show maxd + 1 - depth = 0 by omega]
    rfl
  · intro fetch maxd n us c hwrap hinl
    have h := fetchVastAux_chain fetch n us c hwrap hinl (maxd + 1) 0 (Nat.zero_le n)
    rw [if_neg (by omega)] at h
    constructor
    · intro hgt
      unfold fetch_vast
      rw [Nat.sub_zero, h, if_neg (by omega)]
    · intro hle
      unfold fetch_vast
      rw [Nat.sub_zero, h, if_pos (by omega)]
  · intro fetch maxd url hcyc
    unfold fetch_vast
    rw [fetchVastAux_cyclic fetch hcyc, if_neg (by omega)]

/-- Example inline ad for the wrapper-chain witness. -/
def exInline : InLineAd :=
  ⟨"sys", "title",
    [⟨"c1", some ⟨.num 15,
      [⟨"http://cdn/ad.m3u8", "streaming", "application/x-mpegURL", 1280, 720,
        none, none⟩], []⟩⟩], [], none⟩

def chainUrl (k : ℕ) : String := "u" ++ toString k

/-- A six-wrapper chain `u0 → … → u6` ending in an inline ad. -/
def chainFetch6 (v : String) : Option VastResponse :=
  if v == ("u0") then some (wrapperResponse (chainUrl 1))
  else if v == ("u1") then some (wrapperResponse (chainUrl 2))
  else if v == ("u2") then some (wrapperResponse (chainUrl 3))
  else if v == ("u3") then some (wrapperResponse (chainUrl 4))
  else if v == ("u4") then some (wrapperResponse (chainUrl 5))
  else if v == ("u5") then some (wrapperResponse (chainUrl 6))
  else if v == ("u6") then some (inlineResponse exInline)
  else none

/-- Witness for `fetch_vast_depth_bound`: the six-deep chain exceeds the
bound 5 and yields no creatives; a call at depth 6 returns `None`; a cyclic
wrapper yields no creatives. -/
theorem fetch_vast_depth_bound_witness :
    ((∀ k, k < 6 → chainFetch6 (chainUrl k) = some (wrapperResponse (chainUrl (k + 1)))) ∧
      chainFetch6 (chainUrl 6) = some (inlineResponse exInline) ∧ 5 < 6) ∧
    fetch_vast chainFetch6 5 (chainUrl 0) 0 = some [] ∧
    fetch_vast chainFetch6 5 "other" 6 = none ∧
    fetch_vast (fun v => some (wrapperResponse v)) 5 "loop" 0 = some [] := by
  refine ⟨⟨by decide, by decide, by omega⟩, ?_, ?_, ?_⟩
  · exact (fetch_vast_depth_bound.2.1 chainFetch6 5 6 chainUrl exInline
      (by decide) (by decide)).1 (by omega)
  · exact fetch_vast_depth_bound.1 chainFetch6 5 6 "other" (by omega)
  · exact fetch_vast_depth_bound.2.2 (fun v => some (wrapperResponse v)) 5 "loop"
      (fun v => rfl)

/-- `src/ad/vast_provider.rs` `ResolvedCreative`, as stored in the
per-session ad cache.  Modelled from the spec: the `inserted_at` field
(§3 "ResolvedCreative cache entry … { creative_url, duration, is_hls,
inserted_at }") belongs to the cache-eviction code whose implementation
(`VastAdProvider::cleanup_cache`, invoked every 60 s from `build_router` in
`src/server/mod.rs`) is not among the provided sources. -/
structure ResolvedCreative where
  url : String
  duration : F32Val
  is_hls : Bool
  inserted_at : ℕ
deriving DecidableEq, Repr

/-- Modelled from the spec: `VastAdProvider::cleanup_cache` — "Cache
eviction: entries exceed `ttl` … are evicted by a periodic sweep; a hard cap
(e.g. 10,000 entries) evicts the oldest on overflow" (§4.9.2).  The cache is
kept in insertion order (oldest first); the sweep keeps the entries within
the TTL and then drops the oldest entries down to the cap. -/
def cleanup_cache (now ttl cap : ℕ) (cache : List (String × ResolvedCreative)) :
    List (String × ResolvedCreative) :=
  let fresh := cache.filter (fun e => decide (now - e.2.inserted_at ≤ ttl))
  fresh.drop (fresh.length - cap)

/-- C8: after every periodic sweep the resolved-creative cache holds at most
`cap` entries, every surviving entry is within the TTL, and survivors are a
sub-collection of the pre-sweep cache — so the cache cannot grow without
bound across repeated `get_ad_segments` insertions. -/
theorem cleanup_cache_bounded :
    ∀ (now ttl cap : ℕ) (cache : List (String × ResolvedCreative)),
      (cleanup_cache now ttl cap cache).length ≤ cap ∧
      (cleanup_cache now ttl cap cache).length ≤ cache.length ∧
      (∀ e ∈ cleanup_cache now ttl cap cache,
        now - e.2.inserted_at ≤ ttl ∧ e ∈ cache) := by
  intro now ttl cap cache
  unfold cleanup_cache
  refine ⟨?_, ?_, ?_⟩
  · rw [List.length_drop]
    omega
  · rw [List.length_drop]
    have := List.length_filter_le (fun e => decide (now - e.2.inserted_at ≤ ttl)) cache
    omega
  · intro e he
    have hf := List.mem_of_mem_drop he
    have hm := List.mem_filter.1 hf
    exact ⟨by simpa using hm.2, hm.1⟩

/-- Witness for `cleanup_cache_bounded` on a concrete three-entry cache with
cap 1 and one stale entry. -/
theorem cleanup_cache_bounded_witness :
    (cleanup_cache 100 30 1
        [("a", ⟨"u1", .num 1, false, 10⟩), ("b", ⟨"u2", .num 1, false, 80⟩),
         ("c", ⟨"u3", .num 1, false, 90⟩)]).length ≤ 1 ∧
    (∀ e ∈ cleanup_cache 100 30 1
        [("a", ⟨"u1", .num 1, false, 10⟩), ("b", ⟨"u2", .num 1, false, 80⟩),
         ("c", ⟨"u3", .num 1, false, 90⟩)],
      100 - e.2.inserted_at ≤ 30) := by
  have h := cleanup_cache_bounded 100 30 1
    [("a", ⟨"u1", .num 1, false, 10⟩), ("b", ⟨"u2", .num 1, false, 80⟩),
     ("c", ⟨"u3", .num 1, false, 90⟩)]
  exact ⟨h.1, fun e he => (h.2.2 e he).1⟩

/-- Exact addition on the float model (rational addition computed through
`mkRat` so it evaluates by kernel reduction; NaN and infinities propagate as
in IEEE). -/
def f32Add : F32Val → F32Val → F32Val
  | .nan, _ => .nan
  | _, .nan => .nan
  | .inf s, .inf t => if s = t then .inf s else .nan
  | .inf s, .num _ => .inf s
  | .num _, .inf t => .inf t
  | .num a, .num b => .num (mkRat (a.num * (b.den : ℤ) + b.num * (a.den : ℤ)) (a.den * b.den))

/-- `dash-mpd` `SegmentURL` (field used by the interleaver). -/
structure SegmentURL where
  media : Option String
deriving DecidableEq, Repr

/-- `dash-mpd` `SegmentList` (field used by the interleaver). -/
structure SegmentList where
  segment_urls : List SegmentURL
deriving DecidableEq, Repr

/-- `dash-mpd` `Representation` (fields used by the interleaver; named
`DashRepresentation` here because `Representation` exists in Mathlib). -/
structure DashRepresentation where
  id : Option String
  bandwidth : Option ℕ
  segment_list : Option SegmentList
deriving DecidableEq, Repr

/-- `dash-mpd` `AdaptationSet` (fields used by the interleaver). -/
structure AdaptationSet where
  contentType : Option String
  mimeType : Option String
  lang : Option String
  representations : List DashRepresentation
deriving DecidableEq, Repr

/-- `dash-mpd` `Period` (fields used by the interleaver); `duration` is the
`Duration::from_secs_f64` value in seconds. -/
structure Period where
  id : Option String
  duration : Option F32Val
  adaptations : List AdaptationSet
deriving DecidableEq, Repr

/-- `dash-mpd` `MPD` (field used by the interleaver). -/
structure MPD where
  periods : List Period
deriving DecidableEq, Repr

/-- `src/dash/cue.rs` `DashSignalType`. -/
inductive DashSignalType where
  | spliceInsert
  | timeSignal
deriving DecidableEq, Repr

/-- `src/dash/cue.rs` `DashAdBreak`. -/
structure DashAdBreak where
  period_index : ℕ
  period_id : Option String
  duration : F32Val
  presentation_time : F32Val
  signal_type : DashSignalType
deriving DecidableEq, Repr

/-- `ad_segments.iter().map(|s| s.duration as f64).sum()`. -/
def sumDurations (ads : List AdSegment) : F32Val :=
  ads.foldl (fun acc s => f32Add acc s.duration) (.num 0)

/-- The `SegmentURL` entries of one ad Period (shared across all tracks). -/
def segmentUrlsFor (ads : List AdSegment) (break_idx : ℕ)
    (session_id base_url : String) : List SegmentURL :=
  ads.mapIdx (fun seg_idx _ =>
    ⟨some (base_url ++ "/stitch/" ++ session_id ++ "/ad/break-" ++ toString break_idx
      ++ "-seg-" ++ toString seg_idx ++ ".ts")⟩)

/-- `src/dash/interleaver.rs` `create_fallback_video_adaptation_set`. -/
def create_fallback_video_adaptation_set (break_idx : ℕ)
    (segment_urls : List SegmentURL) : AdaptationSet :=
  ⟨some "video", some "video/mp4", none,
    [⟨some ("ad-rep-" ++ toString break_idx), some 500000, some ⟨segment_urls⟩⟩]⟩

/-- `src/dash/interleaver.rs` `create_ad_period`. -/
def create_ad_period (ads : List AdSegment) (break_idx : ℕ)
    (session_id base_url : String) (content_adaptations : List AdaptationSet) : Period :=
  let segment_urls := segmentUrlsFor ads break_idx session_id base_url
  let adaptations :=
    if content_adaptations.isEmpty then
      [create_fallback_video_adaptation_set break_idx segment_urls]
    else
      content_adaptations.mapIdx (fun as_idx content_as =>
        let bw := ((content_as.representations.head?).bind
          (fun r => r.bandwidth)).getD 500000
        ⟨content_as.contentType, content_as.mimeType, content_as.lang,
          [⟨some ("ad-rep-" ++ toString break_idx ++ "-" ++ toString as_idx),
            some bw, some ⟨segment_urls⟩⟩]⟩)
  ⟨some ("ad-" ++ toString break_idx), some (sumDurations ads), adaptations⟩

/-- One step of the reverse walk of `interleave_ads_mpd`: the element is
`(break_idx, ad_break, ad_segments)`. -/
def dashStep (session_id base_url : String) (periods : List Period)
    (x : ℕ × DashAdBreak × List AdSegment) : List Period :=
  if x.2.2.isEmpty then periods
  else
    let content_adaptations :=
      ((periods.get? x.2.1.period_index).map (fun p => p.adaptations)).getD []
    let ad_period := create_ad_period x.2.2 x.1 session_id base_url content_adaptations
    if x.2.1.period_index + 1 ≤ periods.length then
      periods.insertIdx (x.2.1.period_index + 1) ad_period
    else
      periods ++ [ad_period]

/-- The reverse fold of `interleave_ads_mpd` over the enumerated breaks
(the code iterates `.enumerate().rev()`). -/
def dashRun (session_id base_url : String)
    (l : List (ℕ × DashAdBreak × List AdSegment)) (ps : List Period) : List Period :=
  (l.reverse).foldl (dashStep session_id base_url) ps

/-- `src/dash/interleaver.rs` `interleave_ads_mpd`. -/
def interleave_ads_mpd (mpd : MPD) (ad_breaks : List DashAdBreak)
    (ad_segments_per_break : List (List AdSegment))
    (session_id base_url : String) : MPD :=
  if ad_breaks.isEmpty then mpd
  else if ad_breaks.length ≠ ad_segments_per_break.length then mpd
  else
    { mpd with
      periods := dashRun session_id base_url
        ((ad_breaks.zip ad_segments_per_break).enum) mpd.periods }

theorem dashRun_cons (sid base : String) (x : ℕ × DashAdBreak × List AdSegment)
    (l : List (ℕ × DashAdBreak × List AdSegment)) (ps : List Period) :
    dashRun sid base (x :: l) ps = dashStep sid base (dashRun sid base l ps) x := by
  unfold dashRun
  rw [List.reverse_cons, List.foldl_append]
  rfl

theorem dashStep_length (sid base : String) (ps : List Period)
    (x : ℕ × DashAdBreak × List AdSegment) :
    (dashStep sid base ps x).length
      = ps.length + (if x.2.2.isEmpty then 0 else 1) := by
  unfold dashStep
  by_cases he : x.2.2.isEmpty = true
  · simp [he]
  · rw [if_neg he]
    by_cases hin : x.2.1.period_index + 1 ≤ ps.length
    · rw [if_pos hin]
      rw [List.length_insertIdx _ _ hin]
      simp [he]
    · rw [if_neg hin]
      simp [he]

theorem dashRun_length (sid base : String) :
    ∀ (l : List (ℕ × DashAdBreak × List AdSegment)) (ps : List Period),
      (dashRun sid base l ps).length
        = ps.length + l.countP (fun x => !x.2.2.isEmpty) := by
  intro l
  induction l with
  | nil => intro ps; rfl
  | cons x l ih =>
    intro ps
    rw [dashRun_cons, dashStep_length, ih ps, List.countP_cons]
    by_cases he : x.2.2.isEmpty = true
    · simp [he]
    · simp [he]
      omega

theorem get?_insertIdx_of_lt {α : Type} (L : List α) (a : α) (n j : ℕ)
    (hj : j < n) (hn : n ≤ L.length) :
    (L.insertIdx n a).get? j = L.get? j := by
  have hjl : j < L.length := by omega
  have hlen := @List.length_insertIdx α a n L hn
  rw [List.get?_eq_getElem?, List.get?_eq_getElem?,
    List.getElem?_eq_getElem (by omega), List.getElem?_eq_getElem hjl]
  exact congrArg some (List.getElem_insertIdx_of_lt L a n j hj hjl)

theorem get?_insertIdx_self {α : Type} (L : List α) (a : α) (n : ℕ)
    (hn : n ≤ L.length) :
    (L.insertIdx n a).get? n = some a := by
  have hlen := @List.length_insertIdx α a n L hn
  rw [List.get?_eq_getElem?, List.getElem?_eq_getElem (by omega)]
  exact congrArg some (List.getElem_insertIdx_self L a n hn)

theorem get?_insertIdx_shift {α : Type} (L : List α) (a : α) (n j : ℕ)
    (hn : n ≤ j) (hj : j < L.length) :
    (L.insertIdx n a).get? (j + 1) = L.get? j := by
  have hlen := @List.length_insertIdx α a n L (by omega)
  rw [List.get?_eq_getElem?, List.get?_eq_getElem?]
  have h1 : (List.insertIdx n a L)[n + (j - n) + 1]? = L[n + (j - n)]? := by
    rw [List.getElem?_eq_getElem (by omega), List.getElem?_eq_getElem (by omega)]
    exact congrArg some (List.getElem_insertIdx_add_succ L a n (j - n) (by omega))
  have hk : n + (j - n) = j := by omega
  rw [hk] at h1
  exact h1

theorem dashStep_of_empty (sid base : String) (ps : List Period)
    (x : ℕ × DashAdBreak × List AdSegment) (he : x.2.2.isEmpty = true) :
    dashStep sid base ps x = ps := by
  unfold dashStep
  rw [if_pos he]

theorem dashStep_insert (sid base : String) (R : List Period)
    (x : ℕ × DashAdBreak × List AdSegment) (sig : Period)
    (hne : ¬ x.2.2.isEmpty = true)
    (hget : R.get? x.2.1.period_index = some sig)
    (hin : x.2.1.period_index + 1 ≤ R.length) :
    dashStep sid base R x
      = R.insertIdx (x.2.1.period_index + 1)
          (create_ad_period x.2.2 x.1 sid base sig.adaptations) := by
  unfold dashStep
  rw [if_neg hne]
  simp only [hget, Option.map_some', Option.getD_some]
  rw [if_pos hin]

theorem dashRun_keeps_front (sid base : String) :
    ∀ (l : List (ℕ × DashAdBreak × List AdSegment)) (ps : List Period) (m : ℕ),
      (∀ x ∈ l, m < x.2.1.period_index) →
      ∀ j, j ≤ m → j < ps.length →
        (dashRun sid base l ps).get? j = ps.get? j := by
  intro l
  induction l with
  | nil => intro ps m _ j _ _; rfl
  | cons x l ih =>
    intro ps m hgt j hj hjp
    rw [dashRun_cons]
    have hx := hgt x (by simp)
    have hrec := ih ps m (fun y hy => hgt y (by simp [hy])) j hj hjp
    have hRlen : ps.length ≤ (dashRun sid base l ps).length := by
      rw [dashRun_length]
      exact Nat.le_add_right _ _
    by_cases he : x.2.2.isEmpty = true
    · rw [dashStep_of_empty sid base _ x he]
      exact hrec
    · unfold dashStep
      rw [if_neg he]
      by_cases hin : x.2.1.period_index + 1 ≤ (dashRun sid base l ps).length
      · rw [if_pos hin]
        rw [get?_insertIdx_of_lt _ _ _ j (by omega) hin]
        exact hrec
      · rw [if_neg hin]
        rw [List.get?_eq_getElem?, List.getElem?_append_left (by omega),
          ← List.get?_eq_getElem?]
        exact hrec

theorem chain'_lt_of_mem :
    ∀ (l : List (ℕ × DashAdBreak × List AdSegment)) (y : ℕ × DashAdBreak × List AdSegment),
      List.Chain' (fun a b => a.2.1.period_index < b.2.1.period_index) (y :: l) →
      ∀ z ∈ l, y.2.1.period_index < z.2.1.period_index := by
  intro l
  induction l with
  | nil => intro y _ z hz; cases hz
  | cons a l ih =>
    intro y h z hz
    have h1 : y.2.1.period_index < a.2.1.period_index := (List.chain'_cons.1 h).1
    rcases List.mem_cons.1 hz with rfl | hz2
    · exact h1
    · have := ih a (List.chain'_cons.1 h).2 z hz2
      omega

theorem get?_some_lt_length {α : Type} {L : List α} {n : ℕ} {a : α}
    (h : L.get? n = some a) : n < L.length := by
  by_contra hc
  rw [List.get?_eq_none.2 (by omega)] at h
  exact Option.noConfusion h

theorem dashRun_adjacency (sid base : String) :
    ∀ (l : List (ℕ × DashAdBreak × List AdSegment)) (ps : List Period),
      List.Chain' (fun a b => a.2.1.period_index < b.2.1.period_index) l →
      (∀ x ∈ l, x.2.1.period_index < ps.length) →
      ∀ x ∈ l, ¬ x.2.2.isEmpty = true →
        ∀ sig, ps.get? x.2.1.period_index = some sig →
          ∃ p, x.2.1.period_index ≤ p ∧
            (dashRun sid base l ps).get? p = some sig ∧
            (dashRun sid base l ps).get? (p + 1)
              = some (create_ad_period x.2.2 x.1 sid base sig.adaptations) := by
  intro l
  induction l with
  | nil => intro ps _ _ x hx; cases hx
  | cons y l ih =>
    intro ps hchain hbound x hx hne sig hsig
    have hRlen : ps.length ≤ (dashRun sid base l ps).length := by
      rw [dashRun_length]
      exact Nat.le_add_right _ _
    rcases List.mem_cons.1 hx with rfl | hxl
    · -- the head break is processed last, onto the already-extended list
      have hall := chain'_lt_of_mem l x hchain
      have hxb := hbound x (by simp)
      have hsigR : (dashRun sid base l ps).get? x.2.1.period_index
          = some sig := by
        rw [dashRun_keeps_front sid base l ps x.2.1.period_index
          (fun z hz => hall z hz) _ (le_refl _) hxb]
        exact hsig
      have hin : x.2.1.period_index + 1 ≤ (dashRun sid base l ps).length := by
        omega
      rw [dashRun_cons, dashStep_insert sid base _ x sig hne hsigR hin]
      refine ⟨x.2.1.period_index, le_refl _, ?_, ?_⟩
      · rw [get?_insertIdx_of_lt _ _ _ _ (by omega) hin]
        exact hsigR
      · exact get?_insertIdx_self _ _ _ hin
    · -- the break sits in the tail; the head step preserves adjacency
      obtain ⟨p, hpge, hp1, hp2⟩ := ih ps ((List.chain'_cons'.1 hchain).2)
        (fun z hz => hbound z (by simp [hz])) x hxl hne sig hsig
      rw [dashRun_cons]
      by_cases he : y.2.2.isEmpty = true
      · rw [dashStep_of_empty sid base _ y he]
        exact ⟨p, hpge, hp1, hp2⟩
      · have hyb := hbound y (by simp)
        have hylt : y.2.1.period_index < x.2.1.period_index :=
          chain'_lt_of_mem l y hchain x hxl
        have hyR : ∃ sigy, (dashRun sid base l ps).get? y.2.1.period_index
            = some sigy := by
          have : y.2.1.period_index < (dashRun sid base l ps).length := by omega
          rcases List.get?_eq_get this with h
          exact ⟨_, h⟩
        obtain ⟨sigy, hysig⟩ := hyR
        have hin : y.2.1.period_index + 1 ≤ (dashRun sid base l ps).length := by
          omega
        rw [dashStep_insert sid base _ y sigy he hysig hin]
        have hpR : p < (dashRun sid base l ps).length := get?_some_lt_length hp1
        have hp1R : p + 1 < (dashRun sid base l ps).length := get?_some_lt_length hp2
        refine ⟨p + 1, by omega, ?_, ?_⟩
        · rw [get?_insertIdx_shift _ _ _ p (by omega) hpR]
          exact hp1
        · rw [get?_insertIdx_shift _ _ _ (p + 1) (by omega) hp1R]
          exact hp2

theorem countP_enumFrom {α : Type} (f : α → Bool) :
    ∀ (n : ℕ) (l : List α),
      (List.enumFrom n l).countP (fun x => f x.2) = l.countP f := by
  intro n l
  induction l generalizing n with
  | nil => rfl
  | cons a l ih =>
    rw [show List.enumFrom n (a :: l) = (n, a) :: List.enumFrom (n + 1) l from rfl,
      List.countP_cons, List.countP_cons, ih (n + 1)]

theorem snd_mem_enumFrom {α : Type} :
    ∀ (n : ℕ) (l : List α) (x : ℕ × α), x ∈ List.enumFrom n l → x.2 ∈ l := by
  intro n l
  induction l generalizing n with
  | nil => intro x hx; cases hx
  | cons a l ih =>
    intro x hx
    rw [show List.enumFrom n (a :: l) = (n, a) :: List.enumFrom (n + 1) l from rfl] at hx
    rcases List.mem_cons.1 hx with rfl | hx2
    · simp
    · exact List.mem_cons_of_mem _ (ih (n + 1) x hx2)

theorem chain'_enumFrom {α : Type} (R : α → α → Prop) :
    ∀ (n : ℕ) (l : List α), List.Chain' R l →
      List.Chain' (fun x y : ℕ × α => R x.2 y.2) (List.enumFrom n l) := by
  intro n l
  induction l generalizing n with
  | nil => intro; exact List.chain'_nil
  | cons a l ih =>
    intro h
    cases l with
    | nil => exact List.chain'_singleton _
    | cons b l2 =>
      rw [show List.enumFrom n (a :: b :: l2)
        = (n, a) :: List.enumFrom (n + 1) (b :: l2) from rfl]
      rw [show List.enumFrom (n + 1) (b :: l2)
        = (n + 1, b) :: List.enumFrom (n + 2) l2 from rfl]
      refine List.chain'_cons.2 ⟨(List.chain'_cons.1 h).1, ?_⟩
      have := ih (n + 1) (List.chain'_cons.1 h).2
      rw [show List.enumFrom (n + 1) (b :: l2)
        = (n + 1, b) :: List.enumFrom (n + 2) l2 from rfl] at this
      exact this

/-- C9 (amended): for equal-length break/ad lists the period count after
interleaving is the count before plus the number of breaks with a non-empty
ad list (for EVERY break list); and when the breaks are strictly increasing
in `period_index` and in bounds, each inserted ad Period sits immediately
after its break's signal Period. -/
theorem interleave_ads_mpd_spec :
    (∀ (mpd : MPD) (ad_breaks : List DashAdBreak) (ads : List (List AdSegment))
        (sid base : String),
      ad_breaks.length = ads.length →
      (interleave_ads_mpd mpd ad_breaks ads sid base).periods.length
        = mpd.periods.length + (ad_breaks.zip ads).countP (fun p => !p.2.isEmpty)) ∧
    (∀ (mpd : MPD) (ad_breaks : List DashAdBreak) (ads : List (List AdSegment))
        (sid base : String),
      ad_breaks.length = ads.length →
      List.Chain' (fun a b : DashAdBreak => a.period_index < b.period_index) ad_breaks →
      (∀ b ∈ ad_breaks, b.period_index < mpd.periods.length) →
      ∀ x ∈ (ad_breaks.zip ads).enum, ¬ x.2.2.isEmpty = true →
        ∀ sig, mpd.periods.get? x.2.1.period_index = some sig →
          ∃ p, x.2.1.period_index ≤ p ∧
            (interleave_ads_mpd mpd ad_breaks ads sid base).periods.get? p
              = some sig ∧
            (interleave_ads_mpd mpd ad_breaks ads sid base).periods.get? (p + 1)
              = some (create_ad_period x.2.2 x.1 sid base sig.adaptations)) := by
  constructor
  · intro mpd breaks ads sid base hlen
    by_cases hemp : breaks.isEmpty = true
    · have hbr : breaks = [] := List.isEmpty_iff.1 hemp
      subst hbr
      simp [interleave_ads_mpd]
    · unfold interleave_ads_mpd
      rw [if_neg hemp, if_neg (by omega)]
      rw [show (breaks.zip ads).enum = List.enumFrom 0 (breaks.zip ads) from rfl]
      rw [dashRun_length]
      rw [countP_enumFrom (fun p => !p.2.isEmpty) 0 (breaks.zip ads)]
  · intro mpd breaks ads sid base hlen hchain hbound x hx hne sig hsig
    by_cases hemp : breaks.isEmpty = true
    · exfalso
      have hbr : breaks = [] := List.isEmpty_iff.1 hemp
      subst hbr
      simp at hx
    · have hfst : (breaks.zip ads).map Prod.fst = breaks :=
        List.map_fst_zip breaks ads (le_of_eq hlen)
      have hchainz : List.Chain' (fun p q : DashAdBreak × List AdSegment =>
          p.1.period_index < q.1.period_index) (breaks.zip ads) := by
        rw [← hfst] at hchain
        exact (List.chain'_map Prod.fst).1 hchain
      have hchaine := chain'_enumFrom
        (fun p q : DashAdBreak × List AdSegment => p.1.period_index < q.1.period_index)
        0 (breaks.zip ads) hchainz
      have hbounde : ∀ y ∈ (breaks.zip ads).enum,
          y.2.1.period_index < mpd.periods.length := by
        intro y hy
        have hz := snd_mem_enumFrom 0 (breaks.zip ads) y hy
        exact hbound y.2.1 (List.of_mem_zip hz).1
      have h := dashRun_adjacency sid base ((breaks.zip ads).enum) mpd.periods
        (by
          rw [show (breaks.zip ads).enum = List.enumFrom 0 (breaks.zip ads) from rfl]
          exact hchaine)
        hbounde x hx hne sig hsig
      unfold interleave_ads_mpd
      rw [if_neg hemp, if_neg (by omega)]
      exact h

/-- Concrete DASH instances for the placement counterexample and witness. -/
def exDashP (i : ℕ) : Period := ⟨some ("content-" ++ toString i), some (.num 60), []⟩

def exDashMpd : MPD := ⟨[exDashP 0, exDashP 1, exDashP 2]⟩

def exDashBreak (i : ℕ) : DashAdBreak :=
  ⟨i, some ("content-" ++ toString i), .num 30, .num 0, .spliceInsert⟩

def exDashAds : List (List AdSegment) :=
  [[⟨"x.ts", .num 10, none⟩], [⟨"y.ts", .num 10, none⟩]]

/-- C9 counterexample: with the break list NOT ordered by `period_index`
(`[period 2, period 0]`), the reverse-order insertion walk places the ad
Period of the first break (signal Period `content-2`) at index 3, BEFORE its
signal Period (index 4) — so it is not immediately after it.  The count
clause still holds; the placement clause of the claim fails. -/
theorem interleave_ads_mpd_placement_false :
    ¬ ∃ p, (interleave_ads_mpd exDashMpd [exDashBreak 2, exDashBreak 0]
        exDashAds "t" "http://t").periods.get? p = some (exDashP 2) ∧
      (interleave_ads_mpd exDashMpd [exDashBreak 2, exDashBreak 0]
        exDashAds "t" "http://t").periods.get? (p + 1)
        = some (create_ad_period [⟨"x.ts", .num 10, none⟩] 0 "t" "http://t"
            (exDashP 2).adaptations) := by
  rintro ⟨p, h1, h2⟩
  have hp : p < 5 := by
    have h := get?_some_lt_length h1
    have hlen : (interleave_ads_mpd exDashMpd [exDashBreak 2, exDashBreak 0]
        exDashAds "t" "http://t").periods.length = 5 := by decide
    omega
  interval_cases p <;> revert h1 h2 <;> decide

/-- Witness for `interleave_ads_mpd_spec` with one in-bounds break. -/
theorem interleave_ads_mpd_spec_witness :
    (([exDashBreak 0] : List DashAdBreak).length
        = ([[⟨"x.ts", .num 10, none⟩]] : List (List AdSegment)).length ∧
      List.Chain' (fun a b : DashAdBreak => a.period_index < b.period_index)
        [exDashBreak 0] ∧
      (∀ b ∈ [exDashBreak 0], b.period_index < exDashMpd.periods.length)) ∧
    (interleave_ads_mpd exDashMpd [exDashBreak 0] [[⟨"x.ts", .num 10, none⟩]]
        "t" "http://t").periods.length
      = exDashMpd.periods.length
        + (([exDashBreak 0] : List DashAdBreak).zip
            ([[⟨"x.ts", .num 10, none⟩]] : List (List AdSegment))).countP
            (fun p => !p.2.isEmpty) ∧
    (∃ p, (0 : ℕ) ≤ p ∧
      (interleave_ads_mpd exDashMpd [exDashBreak 0] [[⟨"x.ts", .num 10, none⟩]]
          "t" "http://t").periods.get? p = some (exDashP 0) ∧
      (interleave_ads_mpd exDashMpd [exDashBreak 0] [[⟨"x.ts", .num 10, none⟩]]
          "t" "http://t").periods.get? (p + 1)
        = some (create_ad_period [⟨"x.ts", .num 10, none⟩] 0 "t" "http://t"
            (exDashP 0).adaptations)) := by
  refine ⟨⟨by decide, List.chain'_singleton _, by decide⟩, ?_, ?_⟩
  · exact interleave_ads_mpd_spec.1 exDashMpd [exDashBreak 0]
      [[⟨"x.ts", .num 10, none⟩]] "t" "http://t" (by decide)
  · exact interleave_ads_mpd_spec.2 exDashMpd [exDashBreak 0]
      [[⟨"x.ts", .num 10, none⟩]] "t" "http://t" (by decide)
      (List.chain'_singleton _) (by decide)
      (0, (exDashBreak 0, [⟨"x.ts", .num 10, none⟩])) (by decide) (by decide)
      (exDashP 0) (by decide)
